import Mathlib

/-!
Verification of the box-layout codec (`src/boxes.rs` of `imp_encoding`).

Shallow embedding conventions:
* Rust `Vec<Vec<String>>` becomes `List (List String)`; a cell is the string it
  holds, `"#"` (`FILLED`) marking a payload cell, anything else a blackout
  fragment.
* Rust `usize`/`u8`/`u32` arithmetic is modelled with `Nat`.  The bit
  accumulators in the codec stay far below `2 ^ 32` (the pending offset never
  exceeds 11 bits before an emission and 12 bits in the repacker), so no
  wrap-around is lost by the `Nat` model.  `bits & ((1 << w) - 1)` is modelled
  as `bits % 2 ^ w`, `bits >> w` as `bits / 2 ^ w`, and `bits |= b << off` as
  `bits + b * 2 ^ off` (the OR operands have disjoint binary digits: the code
  keeps every stored bit strictly below position `off`, an invariant proved in
  the lemmas below, so OR coincides with addition).
* Rust panicking indexing `v[i]` is modelled with `List.getD`; the claims are
  settled on executions that stay in bounds, where the two agree.
* Strings are handled as their character lists.  The Rust parser iterates
  extended grapheme clusters; a character forms its own cluster unless an
  extending character (a combining mark and the like) adjoins it, so the
  per-character model of the parser coincides with the source exactly on
  strings of box-drawing glyphs, spaces and newlines — the renderings of
  blackout-free layouts, the domain to which claim C1 is confined.  Blackout
  text can place an extending character next to a glyph, merging the two into
  one cluster that no family contains; the round-trip claim therefore
  excludes blackouts (see C1's counterexample for blackout-induced failures).
* The `f32` field `aspect_ratio` of the config is modelled as `ℚ` (field name
  shortened to `aspect`).  For the dimension ranges the claims touch
  (`h, w < 2 ^ 25`) the comparison `(h as f32) / (w as f32) < a` agrees with
  the exact rational comparison whenever `w ≥ 1`.
-/

/-- The 11 connectivity classes of a filled cell (`enum Connections`). -/
inductive Connections
  | RightDown
  | LeftDown
  | RightUp
  | LeftUp
  | DownUp
  | RightLeft
  | RightLeftDown
  | RightLeftUp
  | RightDownUp
  | LeftDownUp
  | All
deriving DecidableEq, Repr

/-- Glyph family `TOP_LEFT` ("┌┍┎┏"). -/
def TOP_LEFT : List Char := ['┌', '┍', '┎', '┏']

/-- Glyph family `TOP_RIGHT`. -/
def TOP_RIGHT : List Char := ['┐', '┑', '┒', '┓']

/-- Glyph family `BOTTOM_LEFT`. -/
def BOTTOM_LEFT : List Char := ['└', '┕', '┖', '┗']

/-- Glyph family `BOTTOM_RIGHT`. -/
def BOTTOM_RIGHT : List Char := ['┘', '┙', '┚', '┛']

/-- Glyph family `LEFT`. -/
def LEFT : List Char := ['├', '┝', '┞', '┟', '┠', '┡', '┢', '┣']

/-- Glyph family `RIGHT`. -/
def RIGHT : List Char := ['┤', '┥', '┦', '┧', '┨', '┩', '┪', '┫']

/-- Glyph family `TOP`. -/
def TOP : List Char := ['┬', '┭', '┮', '┯', '┰', '┱', '┲', '┳']

/-- Glyph family `BOTTOM`. -/
def BOTTOM : List Char := ['┴', '┵', '┶', '┷', '┸', '┹', '┺', '┻']

/-- Glyph family `CROSS`. -/
def CROSS : List Char :=
  ['┼', '┽', '┾', '┿', '╀', '╁', '╂', '╃', '╄', '╅', '╆', '╇', '╈', '╉', '╊', '╋']

/-- Glyph family `HORIZONTAL`. -/
def HORIZONTAL : List Char := ['─', '╼', '━', '╾']

/-- Glyph family `VERTICAL`. -/
def VERTICAL : List Char := ['│', '╽', '┃', '╿']

/-- `Connections::get_bits`: bit-width of each class. -/
def Connections.get_bits : Connections → Nat
  | .RightDown => 2
  | .LeftDown => 2
  | .RightUp => 2
  | .LeftUp => 2
  | .DownUp => 2
  | .RightLeft => 2
  | .RightLeftDown => 3
  | .RightLeftUp => 3
  | .RightDownUp => 3
  | .LeftDownUp => 3
  | .All => 4

/-- The glyph family (`my_chars` in `Connections::get_character`). -/
def Connections.familyChars : Connections → List Char
  | .RightDown => TOP_LEFT
  | .LeftDown => TOP_RIGHT
  | .RightUp => BOTTOM_LEFT
  | .LeftUp => BOTTOM_RIGHT
  | .DownUp => VERTICAL
  | .RightLeft => HORIZONTAL
  | .RightLeftDown => TOP
  | .RightLeftUp => BOTTOM
  | .RightDownUp => LEFT
  | .LeftDownUp => RIGHT
  | .All => CROSS

/-- `Connections::get_character`: the `point`-th glyph of the class's family.
The Rust code unwraps the lookup; the default `'�'` is never reached on
the executions the claims are about (the point is always below the family
size, see claim C10). -/
def Connections.get_character (c : Connections) (point : Nat) : Char :=
  c.familyChars.getD point '�'

/-- The filled-cell marker (`const FILLED: &str = "#"`). -/
def FILLED : String := "#"

/-- `BoxLayout(pub Vec<Vec<String>>)`: a 2d grid of cell strings. -/
structure BoxLayout where
  rows : List (List String)
deriving DecidableEq, Repr

/-- `BoxLayout::new`: an all-filled `width × height` grid. -/
def BoxLayout.new (width height : Nat) : BoxLayout :=
  ⟨List.replicate height (List.replicate width FILLED)⟩

/-- `BoxLayout::width`: length of row 0 (`self.0[0].len()`). -/
def BoxLayout.width (L : BoxLayout) : Nat :=
  (L.rows.getD 0 []).length

/-- `BoxLayout::height`: number of rows. -/
def BoxLayout.height (L : BoxLayout) : Nat :=
  L.rows.length

/-- The cell string at `(x, y)`; Rust indexes `self.0[y][x]` (panicking), the
model totalises with defaults that the in-bounds executions never see. -/
def BoxLayout.cellD (L : BoxLayout) (x y : Nat) : String :=
  (L.rows.getD y []).getD x ""

/-- `BoxLayout::is_filled`. -/
def BoxLayout.is_filled (L : BoxLayout) (x y : Nat) : Prop :=
  L.cellD x y = FILLED

instance (L : BoxLayout) (x y : Nat) : Decidable (L.is_filled x y) :=
  inferInstanceAs (Decidable (_ = _))

/-- `BoxLayout::get_blackout_at`: the cell string when the (in-bounds) cell is
not filled.  The Rust original uses non-panicking `.get` lookups, mirrored
here by `List.get?`. -/
def BoxLayout.get_blackout_at (L : BoxLayout) (x y : Nat) : Option String :=
  (L.rows.get? y).bind (fun row => row.get? x) |>.bind
    (fun s => if s = FILLED then none else some s)

/-- `BoxLayout::calculate_bits`: 2 bits for each right and each down filled
neighbor of each filled cell (the nested `enumerate` loops become sums over
`List.range`). -/
def BoxLayout.calculate_bits (L : BoxLayout) : Nat :=
  ((List.range L.height).map (fun y =>
    ((List.range (L.rows.getD y []).length).map (fun x =>
      if L.cellD x y = FILLED then
        (if x < (L.rows.getD y []).length - 1 ∧ L.cellD (x + 1) y = FILLED then 2 else 0) +
        (if y < L.height - 1 ∧ L.cellD x (y + 1) = FILLED then 2 else 0)
      else 0)).sum)).sum

/-- `BoxLayout::estimate_bits`: the closed-form capacity of an all-filled
grid. -/
def BoxLayout.estimate_bits (width height : Nat) : Nat :=
  (width - 1) * 2 * height + (height - 1) * 2 * width

/-- `BoxLayout::get_connections_at`: classify a filled cell by its filled
neighbors (the Rust `match` over the four booleans). -/
def BoxLayout.get_connections_at (L : BoxLayout) (x y : Nat) : Option Connections :=
  if L.is_filled x y then
    match decide (x < L.width - 1 ∧ L.is_filled (x + 1) y),
        decide (0 < x ∧ L.is_filled (x - 1) y),
        decide (y < L.height - 1 ∧ L.is_filled x (y + 1)),
        decide (0 < y ∧ L.is_filled x (y - 1)) with
    | true, true, false, false => some .RightLeft
    | false, false, true, true => some .DownUp
    | true, false, true, false => some .RightDown
    | false, true, true, false => some .LeftDown
    | true, false, false, true => some .RightUp
    | false, true, false, true => some .LeftUp
    | true, true, true, false => some .RightLeftDown
    | true, true, false, true => some .RightLeftUp
    | true, false, true, true => some .RightDownUp
    | false, true, true, true => some .LeftDownUp
    | true, true, true, true => some .All
    | _, _, _, _ => none
  else none

/-- Row-major cell coordinates, the cursor path of the codec and renderer. -/
def rowMajor (L : BoxLayout) : List (Nat × Nat) :=
  (List.range L.height).flatMap (fun y => (List.range L.width).map (fun x => (x, y)))

/-- The per-cell connectivity classes along the row-major path. -/
def connList (L : BoxLayout) : List (Option Connections) :=
  (rowMajor L).map (fun xy => L.get_connections_at xy.1 xy.2)

/-- The widths of the connected cells of a cell sequence, in order. -/
def connWidths (cells : List (Option Connections)) : List Nat :=
  cells.filterMap (fun c => c.map Connections.get_bits)

/-- The connectivity classes of the connected cells of a cell sequence. -/
def connClasses (cells : List (Option Connections)) : List Connections :=
  cells.filterMap id

/-- The inner `'push_bits` loop of `BoxLayout::bytes_to_points`: walk the
remaining cells, emitting the low `w` bits of the accumulator at each
connected cell of width `w` while at least `w` bits are pending; stop without
advancing when the pending bits do not fill the current connected cell, and
stop after advancing when the accumulator empties.  Returns the emitted
points, the remaining cells (the cursor), and the accumulator state.
(When the cursor would run past the grid with bits still pending the Rust
code panics on an out-of-bounds index; the model stops instead — the claims
are settled on executions that stay inside the grid.) -/
def pushPoints : List (Option Connections) → Nat → Nat →
    List Nat × List (Option Connections) × Nat × Nat
  | [], bits, offset => ([], [], bits, offset)
  | c :: rest, bits, offset =>
    match c with
    | some conn =>
      if conn.get_bits ≤ offset then
        let p := bits % 2 ^ conn.get_bits
        let bits2 := bits / 2 ^ conn.get_bits
        let offset2 := offset - conn.get_bits
        if offset2 = 0 then ([p], rest, bits2, 0)
        else
          let r := pushPoints rest bits2 offset2
          (p :: r.1, r.2.1, r.2.2.1, r.2.2.2)
      else ([], c :: rest, bits, offset)
    | none =>
      if offset = 0 then ([], rest, bits, offset)
      else pushPoints rest bits offset

/-- The byte loop of `BoxLayout::bytes_to_points`: OR each byte into the
accumulator at the current offset, then run the `'push_bits` loop. -/
def bytesGo : List (Option Connections) → Nat → Nat → List Nat → List Nat
  | _, _, _, [] => []
  | cells, bits, offset, b :: bs =>
    let st := pushPoints cells (bits + b * 2 ^ offset) (offset + 8)
    st.1 ++ bytesGo st.2.1 st.2.2.1 st.2.2.2 bs

/-- `BoxLayout::bytes_to_points`. -/
def BoxLayout.bytes_to_points (L : BoxLayout) (bytes : List Nat) : List Nat :=
  bytesGo (connList L) 0 0 bytes

/-- The newline inserted by the renderer when its cursor wraps off cell
`(x, y)`: a wrap happens at the last column, and emits `'\n'` only when a
further row exists. -/
def nlAfter (L : BoxLayout) (x y : Nat) : List Char :=
  if x + 1 < L.width then [] else if y + 1 < L.height then ['\n'] else []

/-- The `for point in points` loop of `BoxLayout::display_bytes`: walk cells,
emitting blackout text fragments as they are passed (consuming no point) and
one glyph per connected cell (consuming one point); a cell that is neither
emits nothing in this phase.  Returns the rendered prefix and the remaining
cells once the points are exhausted.  (With points pending past the last cell
the Rust code panics; the model stops.) -/
def phase1 (L : BoxLayout) : List (Nat × Nat) → List Nat → List Char × List (Nat × Nat)
  | cells, [] => ([], cells)
  | [], _ :: _ => ([], [])
  | (x, y) :: rest, p :: ps =>
    match L.get_blackout_at x y with
    | some s =>
      let r := phase1 L rest (p :: ps)
      (s.data ++ nlAfter L x y ++ r.1, r.2)
    | none =>
      match L.get_connections_at x y with
      | some c =>
        let r := phase1 L rest ps
        (c.get_character p :: (nlAfter L x y ++ r.1), r.2)
      | none =>
        let r := phase1 L rest (p :: ps)
        (nlAfter L x y ++ r.1, r.2)

/-- The trailing `while y < self.height()` loop of `BoxLayout::display_bytes`:
remaining connected cells render with point 0, blackout cells render their
text, all other cells render a single space. -/
def phase2 (L : BoxLayout) : List (Nat × Nat) → List Char
  | [] => []
  | (x, y) :: rest =>
    (match L.get_connections_at x y with
      | some c => [c.get_character 0]
      | none =>
        match L.get_blackout_at x y with
        | some s => s.data
        | none => [' ']) ++ nlAfter L x y ++ phase2 L rest

/-- `BoxLayout::display_bytes`, as the character list of the rendered
string. -/
def BoxLayout.display_bytes (L : BoxLayout) (bytes : List Nat) : List Char :=
  let r := phase1 L (rowMajor L) (L.bytes_to_points bytes)
  r.1 ++ phase2 L r.2

/-- `point_from_grapheme_in_set`: position of a grapheme in a glyph family
(the Rust code unwraps the position lookup; claim C9 shows the lookup always
succeeds when membership holds, and `List.indexOf` agrees with it there). -/
def point_from_grapheme_in_set (g : Char) (set : List Char) : Nat :=
  set.indexOf g

/-- One step of `parse_boxes_to_points`: test the scanned unit against the
glyph families in the fixed priority order of the source, producing
`(position, bit-width)`; anything outside the 16 families is ignored.  The
source scans extended grapheme clusters; this model takes the unit to be a
single character, which coincides with the source exactly when every
character of the input forms its own cluster — true of every rendering of a
blackout-free layout (box-drawing glyphs, spaces and newlines only), the
domain of claim C1.  A multi-code-point cluster (a glyph merged with a
combining character leaking out of blackout text) is contained in no family
string and is ignored as a whole by the source, whereas this model would see
its characters separately; no theorem below is stated over such inputs. -/
def parseOne (g : Char) : Option (Nat × Nat) :=
  if g ∈ CROSS then some (point_from_grapheme_in_set g CROSS, 4)
  else if g ∈ LEFT then some (point_from_grapheme_in_set g LEFT, 3)
  else if g ∈ RIGHT then some (point_from_grapheme_in_set g RIGHT, 3)
  else if g ∈ TOP then some (point_from_grapheme_in_set g TOP, 3)
  else if g ∈ BOTTOM then some (point_from_grapheme_in_set g BOTTOM, 3)
  else if g ∈ TOP_LEFT then some (point_from_grapheme_in_set g TOP_LEFT, 2)
  else if g ∈ TOP_RIGHT then some (point_from_grapheme_in_set g TOP_RIGHT, 2)
  else if g ∈ BOTTOM_LEFT then some (point_from_grapheme_in_set g BOTTOM_LEFT, 2)
  else if g ∈ BOTTOM_RIGHT then some (point_from_grapheme_in_set g BOTTOM_RIGHT, 2)
  else if g ∈ HORIZONTAL then some (point_from_grapheme_in_set g HORIZONTAL, 2)
  else if g ∈ VERTICAL then some (point_from_grapheme_in_set g VERTICAL, 2)
  else none

/-- `parse_boxes_to_points` on the character list of the input string —
faithful to the grapheme-cluster iteration of the source exactly when every
character of the input is its own cluster (see `parseOne`). -/
def parse_boxes_to_points (s : List Char) : List (Nat × Nat) :=
  s.filterMap parseOne

/-- The `while offset >= 8` flush loop of `box_points_to_bytes`, with an
explicit structural fuel (each iteration lowers `offset` by 8, so any fuel
of at least `offset` steps is never exhausted — `flushBytes` below passes
`offset` itself). -/
def flushBytesAux : Nat → Nat → Nat → List Nat × Nat × Nat
  | 0, bits, offset => ([], bits, offset)
  | fuel + 1, bits, offset =>
    if 8 ≤ offset then
      let r := flushBytesAux fuel (bits / 256) (offset - 8)
      (bits % 256 :: r.1, r.2)
    else ([], bits, offset)

/-- The `while offset >= 8` flush loop of `box_points_to_bytes`: emit full
low-order bytes of the accumulator. -/
def flushBytes (bits offset : Nat) : List Nat × Nat × Nat :=
  flushBytesAux offset bits offset

/-- The point loop of `box_points_to_bytes`. -/
def bpbGo : Nat → Nat → List (Nat × Nat) → List Nat
  | _, _, [] => []
  | bits, offset, (p, w) :: rest =>
    let st := if offset = 0 then (p, w) else (bits + p * 2 ^ offset, offset + w)
    let fl := flushBytes st.1 st.2
    fl.1 ++ bpbGo fl.2.1 fl.2.2 rest

/-- `box_points_to_bytes`. -/
def box_points_to_bytes (points : List (Nat × Nat)) : List Nat :=
  bpbGo 0 0 points

/-- `BoxLayoutConfig`.  The `f32` field `aspect_ratio` of the source is
modelled as `ℚ` under the field name `aspect` (see the header note). -/
structure BoxLayoutConfig where
  min_width : Option Nat := none
  max_width : Option Nat := none
  min_height : Option Nat := none
  max_height : Option Nat := none
  aspect : Option ℚ := none
  blackouts : List (Nat × Nat × String) := []
deriving Repr

/-- The blackout list of an optional config. -/
def blackoutsOf (config : Option BoxLayoutConfig) : List (Nat × Nat × String) :=
  (config.map (fun c => c.blackouts)).getD []

/-- Resolved minimum width: the configured or default minimum, raised to
`left + value.len() + 1` for every blackout (`value.len()` is the byte length
of the Rust string, hence `utf8ByteSize`). -/
def resolvedMinWidth (config : Option BoxLayoutConfig) : Nat :=
  (blackoutsOf config).foldl (fun m b => max m (b.1 + b.2.2.utf8ByteSize + 1))
    ((config.bind (fun c => c.min_width)).getD 2)

/-- Resolved minimum height: raised to `top + 1` for every blackout. -/
def resolvedMinHeight (config : Option BoxLayoutConfig) : Nat :=
  (blackoutsOf config).foldl (fun m b => max m (b.2.1 + 1))
    ((config.bind (fun c => c.min_height)).getD 2)

/-- Resolved maximum width (defaults to the bit length). -/
def resolvedMaxWidth (len : Nat) (config : Option BoxLayoutConfig) : Nat :=
  (config.bind (fun c => c.max_width)).getD (len * 8)

/-- Resolved maximum height (defaults to the bit length). -/
def resolvedMaxHeight (len : Nat) (config : Option BoxLayoutConfig) : Nat :=
  (config.bind (fun c => c.max_height)).getD (len * 8)

/-- Resolved aspect ratio (defaults to 1.0). -/
def resolvedAspect (config : Option BoxLayoutConfig) : ℚ :=
  (config.bind (fun c => c.aspect)).getD 1

/-- The `for (i, c) in value.chars().enumerate()` overlay loop: write each
character of a blackout text, as a one-character cell string, at consecutive
cells starting at `(left, top)`. -/
def writeChars (top left : Nat) : List Char → Nat → List (List String) → List (List String)
  | [], _, rows => rows
  | ch :: rest, i, rows =>
    writeChars top left rest (i + 1)
      (rows.set top ((rows.getD top []).set (left + i) ch.toString))

/-- Overlay one blackout triple onto the grid. -/
def overlayOne (rows : List (List String)) (b : Nat × Nat × String) : List (List String) :=
  writeChars b.2.1 b.1 b.2.2.data 0 rows

/-- The base layout of `layout_byte_length`: an all-filled grid of the
resolved minimum dimensions with every blackout overlaid in list order. -/
def initLayout (config : Option BoxLayoutConfig) : BoxLayout :=
  ⟨(blackoutsOf config).foldl overlayOne
    (BoxLayout.new (resolvedMinWidth config) (resolvedMinHeight config)).rows⟩

/-- The comparison `(height as f32) / (width as f32) < aspect` of the growth
loop, phrased by cross-multiplication (`h / w < a ↔ h * a.den < a.num * w`
whenever `w ≥ 1`).  For `w = 0` the float division yields `inf` (or `NaN`),
which is never `< a`, and this form is likewise false. -/
def ratioLt (h w : Nat) (a : ℚ) : Prop :=
  (h : ℤ) * a.den < a.num * w

instance (h w : Nat) (a : ℚ) : Decidable (ratioLt h w a) := by
  unfold ratioLt; infer_instance

/-- One growth step of the sizer: append a row when
`(height/width < aspect and height < max_height) or width >= max_width`,
otherwise append a column; new cells are all filled. -/
def growStep (maxw maxh : Nat) (a : ℚ) (L : BoxLayout) : BoxLayout :=
  if (ratioLt L.height L.width a ∧ L.height < maxh) ∨ maxw ≤ L.width then
    ⟨L.rows ++ [List.replicate L.width FILLED]⟩
  else ⟨L.rows.map (fun row => row ++ [FILLED])⟩

/-- The `while` guard of the sizer's growth loop. -/
def growGuard (bl maxw maxh : Nat) (L : BoxLayout) : Prop :=
  L.calculate_bits < bl ∧ ¬(maxh ≤ L.height ∧ maxw ≤ L.width)

instance (bl maxw maxh : Nat) (L : BoxLayout) : Decidable (growGuard bl maxw maxh L) := by
  unfold growGuard; infer_instance

/-- The growth loop, with an explicit structural fuel.  Every iteration that
the guard admits raises a dimension that is still below its bound (see the
monotonicity lemmas for claim C6), so the `max_width + max_height + 2` fuel
supplied by `sizedLayout` is never exhausted on runs on which the Rust loop
terminates. -/
def growLoop (bl maxw maxh : Nat) (a : ℚ) : Nat → BoxLayout → BoxLayout
  | 0, L => L
  | fuel + 1, L =>
    if growGuard bl maxw maxh L then growLoop bl maxw maxh a fuel (growStep maxw maxh a L)
    else L

/-- The layout produced by the sizer's growth loop for a request of `len`
bytes. -/
def sizedLayout (len : Nat) (config : Option BoxLayoutConfig) : BoxLayout :=
  growLoop (len * 8) (resolvedMaxWidth len config) (resolvedMaxHeight len config)
    (resolvedAspect config)
    (resolvedMaxWidth len config + resolvedMaxHeight len config + 2)
    (initLayout config)

/-- `layout_byte_length`: the sizer's entry point with its final
success check. -/
def layout_byte_length (len : Nat) (config : Option BoxLayoutConfig) : Option BoxLayout :=
  if len * 8 ≤ (sizedLayout len config).calculate_bits ∧
      (sizedLayout len config).height ≤ resolvedMaxHeight len config ∧
      (sizedLayout len config).width ≤ resolvedMaxWidth len config then
    some (sizedLayout len config)
  else none

/-- One observable iteration of the growth loop (identity once the guard
fails), used to phrase the per-iteration claims. -/
def sizerStep (bl maxw maxh : Nat) (a : ℚ) (L : BoxLayout) : BoxLayout :=
  if growGuard bl maxw maxh L then growStep maxw maxh a L else L

/-- The state of the sizer after `k` growth iterations. -/
def sizerIter (len : Nat) (config : Option BoxLayoutConfig) (k : Nat) : BoxLayout :=
  (sizerStep (len * 8) (resolvedMaxWidth len config) (resolvedMaxHeight len config)
    (resolvedAspect config))^[k] (initLayout config)

/-- The 16 glyph families in the membership-test priority order of
`parse_boxes_to_points` (the per-shape families; 11 entries because the four
corner/edge directions share lists with distinct contents). -/
def glyphFamilies : List (List Char) :=
  [CROSS, LEFT, RIGHT, TOP, BOTTOM, TOP_LEFT, TOP_RIGHT, BOTTOM_LEFT,
    BOTTOM_RIGHT, HORIZONTAL, VERTICAL]

/-- The width contributed by the connectivity class of a cell (0 when the
cell has no class). -/
def connWidthAt (L : BoxLayout) (x y : Nat) : Nat :=
  (L.get_connections_at x y).elim 0 Connections.get_bits

/-- Spec-side definition for claim C3, following the spec's words: the sum
over all cells of the bit-width of the cell's connectivity class, taking 0
when the cell has no class. -/
def connectivityWidthSum (L : BoxLayout) : Nat :=
  ((List.range L.height).map (fun y =>
    ((List.range L.width).map (fun x => connWidthAt L x y)).sum)).sum

/-- The number of filled neighbors of the cell at `(x, y)`, with the same
boundary tests as `get_connections_at`. -/
def filledNeighbors (L : BoxLayout) (x y : Nat) : Nat :=
  (if x < L.width - 1 ∧ L.is_filled (x + 1) y then 1 else 0) +
  (if 0 < x ∧ L.is_filled (x - 1) y then 1 else 0) +
  (if y < L.height - 1 ∧ L.is_filled x (y + 1) then 1 else 0) +
  (if 0 < y ∧ L.is_filled x (y - 1) then 1 else 0)

/-- A rectangular grid: every row has the length of row 0. -/
def Rectangular (L : BoxLayout) : Prop :=
  ∀ row ∈ L.rows, row.length = L.width

instance (L : BoxLayout) : Decidable (Rectangular L) := by
  unfold Rectangular; infer_instance

/-- No filled cell has exactly one filled neighbor (the degenerate cells that
claim C3's equality breaks on: they carry adjacency bits in
`calculate_bits` but have no connectivity class). -/
def NoLoneCell (L : BoxLayout) : Prop :=
  ∀ x < L.width, ∀ y < L.height, L.is_filled x y → filledNeighbors L x y ≠ 1

instance (L : BoxLayout) : Decidable (NoLoneCell L) := by
  unfold NoLoneCell; infer_instance

/-- Little-endian value of a byte list (`bytes[0]` is least significant). -/
def byteVal : List Nat → Nat
  | [] => 0
  | b :: bs => b + byteVal bs * 256

/-- Little-endian value of a `(point, width)` list: each point contributes at
the offset given by the widths before it. -/
def pairVal : List (Nat × Nat) → Nat
  | [] => 0
  | (p, w) :: rest => p + pairVal rest * 2 ^ w

/-- The total bit-width of the points emitted by `bytes_to_points`: the
widths of the first `n` connected cells, where `n` is the number of emitted
points. -/
def bitsConsumed (L : BoxLayout) (bytes : List Nat) : Nat :=
  ((connWidths (connList L)).take (L.bytes_to_points bytes).length).sum

/-- Blackout regions of a config occupy pairwise disjoint cell runs (each
run is `text.data.length` cells of row `top` starting at column `left`). -/
def DisjointBlackouts (config : Option BoxLayoutConfig) : Prop :=
  List.Pairwise (fun a b =>
    a.2.1 ≠ b.2.1 ∨ a.1 + a.2.2.data.length ≤ b.1 ∨ b.1 + b.2.2.data.length ≤ a.1)
    (blackoutsOf config)

instance (config : Option BoxLayoutConfig) : Decidable (DisjointBlackouts config) := by
  unfold DisjointBlackouts; infer_instance

/-- Every character of every blackout cell of `L` is outside the 16 glyph
families (so the parser ignores blackout text).  Quantified over the
row-major cell list, which keeps the predicate decidable on concrete
layouts. -/
def CleanBlackouts (L : BoxLayout) : Prop :=
  ∀ xy ∈ rowMajor L, ∀ s, L.get_blackout_at xy.1 xy.2 = some s →
    ∀ ch ∈ s.data, parseOne ch = none

instance (L : BoxLayout) : Decidable (CleanBlackouts L) := by
  unfold CleanBlackouts; infer_instance

/-- No blackout cell of `L` contains a space character (used by claim C8's
space counting). -/
def SpaceFreeBlackouts (L : BoxLayout) : Prop :=
  ∀ xy ∈ rowMajor L, ∀ s, L.get_blackout_at xy.1 xy.2 = some s → ' ' ∉ s.data

instance (L : BoxLayout) : Decidable (SpaceFreeBlackouts L) := by
  unfold SpaceFreeBlackouts; infer_instance

/-- The layout of claim C8's counterexample: two filled cells isolated by a
blackout column. -/
def cexLayoutC8 : BoxLayout :=
  ⟨[["#", "X", "#", "#"], ["#", "X", "#", "#"]]⟩

/-- Claim C7 counterexample config: a blackout whose text is the filled
marker itself. -/
def cfgHashBlackout : BoxLayoutConfig :=
  { blackouts := [(0, 0, "#")] }

/-- Claim C7 counterexample config: two overlapping blackouts. -/
def cfgOverlapBlackout : BoxLayoutConfig :=
  { blackouts := [(0, 0, "AB"), (0, 0, "CD")] }

/-- The structural invariant the sizer maintains: the grid is rectangular
with positive dimensions and its rightmost column is entirely filled (the
resolved minimum width leaves at least one filled column to the right of
every blackout, and growth only appends filled cells). -/
def GrowInv (L : BoxLayout) : Prop :=
  Rectangular L ∧ 1 ≤ L.width ∧ 1 ≤ L.height ∧
    ∀ y < L.height, L.cellD (L.width - 1) y = FILLED

/-- The config of the `test_layout_data` unit test with a `"Hello"`
blackout. -/
def cfgHello : BoxLayoutConfig :=
  { min_width := some 4, min_height := some 3, aspect := some 1,
    blackouts := [(1, 1, "Hello")] }

/-- The config of claim C5: `max_width` 80, `max_height` 5, everything else
unset. -/
def cfg150 : BoxLayoutConfig :=
  { max_width := some 80, max_height := some 5 }

/-- The full rendered output of the display loops from a given cell cursor
and point list: the first-phase output followed by the trailing-phase output
on the cells the first phase left over. -/
def displayOut (L : BoxLayout) (cells : List (Nat × Nat)) (ps : List Nat) : List Char :=
  (phase1 L cells ps).1 ++ phase2 L (phase1 L cells ps).2

/-- The run of cells covered by a blackout: `n` consecutive cells of row `y`
starting at column `x`. -/
def runCells : Nat → Nat → Nat → List (Nat × Nat)
  | _, _, 0 => []
  | x, y, n + 1 => (x, y) :: runCells (x + 1) y n

/-- Claim C7 witness config: one blackout `"AB"` at cell `(1, 1)`. -/
def cfgAB : BoxLayoutConfig :=
  { blackouts := [(1, 1, "AB")] }

/-- Claim C1 counterexample config: a blackout whose text consists of
box-drawing glyphs, which the parser picks up as payload. -/
def cfgGlyphBlackout : BoxLayoutConfig :=
  { blackouts := [(1, 0, "││")] }

-- Sanity checks against the unit tests of `boxes.rs`.
example : (BoxLayout.new 2 2).calculate_bits = 8 := by decide
example : BoxLayout.estimate_bits 2 2 = 8 := by decide
example : (BoxLayout.new 4 3).calculate_bits = 34 := by decide
example : BoxLayout.estimate_bits 4 3 = 34 := by decide
example :
    (BoxLayout.mk [["#", "#", "#", "#"], ["#", "X", "X", "#"],
      ["#", "#", "#", "#"]]).calculate_bits = 20 := by decide
example : (BoxLayout.new 2 2).bytes_to_points [0b01010101] = [1, 1, 1, 1] := by decide
example : (BoxLayout.new 2 2).bytes_to_points [0b11110000] = [0, 0, 3, 3] := by decide
example :
    (BoxLayout.mk [["#", "#", "#", "#"], ["#", "X", "X", "#"],
      ["#", "#", "#", "#"]]).bytes_to_points [0b11110000, 0b11110000] =
      [0, 0, 3, 3, 0, 0, 3, 3] := by decide
example : (BoxLayout.new 2 2).display_bytes [0] = "┌┐\n└┘".data := by decide
example : (BoxLayout.new 2 2).display_bytes [0b01010101] = "┍┑\n┕┙".data := by decide
example :
    (BoxLayout.mk [["#", "#", "#", "#"], ["#", "X", "X", "#"],
      ["#", "#", "#", "#"]]).display_bytes [0b01010101, 0b01010101] =
      "┍╼╼┑\n╽XX╽\n┕╼─┘".data := by decide
example :
    (BoxLayout.mk [["#", "#", "#", "#"], ["#", "#", "#", "#"],
      ["#", "X", "X", "#"]]).display_bytes [0b11110000, 0b11110000] =
      "┌┰┳┐\n┠┻┴┤\n XX ".data := by decide
example :
    (BoxLayout.mk [["#", "#", "#", "#"], ["#", "#", "#", "#"],
      ["#", "#", "X", "X"]]).display_bytes [0b11110000, 0b11110000] =
      "┌┰┳┐\n┠┼┴┘\n└┘XX".data := by decide
example :
    (layout_byte_length 8 none).map BoxLayout.width = some 5 ∧
    (layout_byte_length 8 none).map BoxLayout.height = some 5 ∧
    (layout_byte_length 8 none).map BoxLayout.calculate_bits = some 80 := by decide
example :
    (layout_byte_length 8 (some cfgHello)).map BoxLayout.width = some 7 ∧
    (layout_byte_length 8 (some cfgHello)).map BoxLayout.height = some 5 ∧
    (layout_byte_length 8 (some cfgHello)).map BoxLayout.calculate_bits = some 84 := by
  decide
example : box_points_to_bytes (parse_boxes_to_points "┌┐\n└┘".data) = [0] := by decide
example :
    box_points_to_bytes (parse_boxes_to_points "┍╼╼┑\n╽XX╽\n┕╼─┘".data) =
      [0b01010101, 0b01010101] := by decide

/-! ## General helper lemmas -/

theorem sum_map_range (f : Nat → Nat) :
    ∀ n, ((List.range n).map f).sum = ∑ i ∈ Finset.range n, f i := by
  intro n
  induction n with
  | zero => simp
  | succ m ih =>
    rw [List.range_succ, Finset.sum_range_succ, List.map_append, List.sum_append]
    simp [ih]

theorem getD_replicate_of_lt {α : Type} (a d : α) {n i : Nat} (h : i < n) :
    (List.replicate n a).getD i d = a := by
  simp [List.getD_eq_getElem?_getD, List.getElem?_replicate, h]

theorem sum_boundary (n c : Nat) :
    (∑ x ∈ Finset.range n, if x + 1 < n then c else 0) = (n - 1) * c := by
  cases n with
  | zero => simp
  | succ m =>
    rw [Finset.sum_range_succ]
    have h1 : (∑ x ∈ Finset.range m, if x + 1 < m + 1 then c else 0) =
        ∑ _x ∈ Finset.range m, c := by
      refine Finset.sum_congr rfl (fun x hx => ?_)
      rw [Finset.mem_range] at hx
      exact if_pos (by omega)
    rw [h1, Finset.sum_const, Finset.card_range, smul_eq_mul,
      if_neg (lt_irrefl (m + 1)), Nat.succ_sub_one, Nat.add_zero]

/-! ## Claim C2 -/

theorem rows_new_getD {w h y : Nat} (hy : y < h) :
    (BoxLayout.new w h).rows.getD y [] = List.replicate w FILLED := by
  show (List.replicate h (List.replicate w FILLED)).getD y [] = _
  rw [getD_replicate_of_lt _ _ hy]

theorem cellD_new {w h x y : Nat} (hx : x < w) (hy : y < h) :
    (BoxLayout.new w h).cellD x y = FILLED := by
  unfold BoxLayout.cellD
  rw [rows_new_getD hy, getD_replicate_of_lt _ _ hx]

theorem height_new (w h : Nat) : (BoxLayout.new w h).height = h := by
  simp [BoxLayout.new, BoxLayout.height]

/-- C2: `estimate_bits(width, height)` is the capacity of the all-filled
layout of those dimensions, for all `width ≥ 2`, `height ≥ 2`. -/
theorem estimate_bits_eq_calculate_bits_new (w h : Nat) (hw : 2 ≤ w) (hh : 2 ≤ h) :
    BoxLayout.estimate_bits w h = (BoxLayout.new w h).calculate_bits := by
  have hcalc : (BoxLayout.new w h).calculate_bits =
      ∑ y ∈ Finset.range h, ∑ x ∈ Finset.range w,
        ((if x + 1 < w then 2 else 0) + (if y + 1 < h then 2 else 0)) := by
    unfold BoxLayout.calculate_bits
    rw [height_new, sum_map_range]
    refine Finset.sum_congr rfl (fun y hy => ?_)
    rw [Finset.mem_range] at hy
    rw [rows_new_getD hy, List.length_replicate, sum_map_range]
    refine Finset.sum_congr rfl (fun x hx => ?_)
    rw [Finset.mem_range] at hx
    rw [if_pos (cellD_new hx hy)]
    congr 1
    · by_cases hxe : x + 1 < w
      · have hc := cellD_new hxe hy
        rw [if_pos (show x < w - 1 ∧ (BoxLayout.new w h).cellD (x + 1) y = FILLED from
          ⟨by omega, hc⟩), if_pos hxe]
      · have hx1 : ¬ x < w - 1 := by omega
        rw [if_neg (fun hc => hx1 hc.1), if_neg hxe]
    · by_cases hye : y + 1 < h
      · have hc := cellD_new hx hye
        rw [if_pos (show y < h - 1 ∧ (BoxLayout.new w h).cellD x (y + 1) = FILLED from
          ⟨by omega, hc⟩), if_pos hye]
      · have hy1 : ¬ y < h - 1 := by omega
        rw [if_neg (fun hc => hy1 hc.1), if_neg hye]
  rw [hcalc]
  have hrow : ∀ y : Nat, (∑ x ∈ Finset.range w,
      ((if x + 1 < w then 2 else 0) + (if y + 1 < h then 2 else 0))) =
      (w - 1) * 2 + w * (if y + 1 < h then 2 else 0) := by
    intro y
    rw [Finset.sum_add_distrib, sum_boundary, Finset.sum_const, Finset.card_range,
      smul_eq_mul]
  calc BoxLayout.estimate_bits w h
      = h * ((w - 1) * 2) + (w * 2) * (h - 1) := by
        unfold BoxLayout.estimate_bits; ring
    _ = ∑ y ∈ Finset.range h, ((w - 1) * 2 + w * (if y + 1 < h then 2 else 0)) := by
        rw [Finset.sum_add_distrib, Finset.sum_const, Finset.card_range, smul_eq_mul,
          ← Finset.mul_sum, sum_boundary]
        ring
    _ = _ := (Finset.sum_congr rfl (fun y _ => (hrow y).symm))

/-- C2 witness at `width = 3`, `height = 4`. -/
theorem estimate_bits_eq_calculate_bits_new_witness :
    2 ≤ 3 ∧ 2 ≤ 4 ∧ BoxLayout.estimate_bits 3 4 = (BoxLayout.new 3 4).calculate_bits :=
  ⟨by decide, by decide,
    estimate_bits_eq_calculate_bits_new 3 4 (by decide) (by decide)⟩

/-! ## Claim C9 -/

/-- C9: whenever a grapheme is a member of one of the glyph families, the
position lookup of `point_from_grapheme_in_set` succeeds (returns a position
inside the family), so the `MalformedGlyph` unwrap of the parser is
unreachable. -/
theorem parse_position_lookup_succeeds (g : Char) (fam : List Char)
    (_hfam : fam ∈ glyphFamilies) (hmem : g ∈ fam) :
    point_from_grapheme_in_set g fam < fam.length := by
  unfold point_from_grapheme_in_set
  exact List.indexOf_lt_length.mpr hmem

/-- C9 witness at the first cross glyph. -/
theorem parse_position_lookup_succeeds_witness :
    CROSS ∈ glyphFamilies ∧ '┼' ∈ CROSS ∧
      point_from_grapheme_in_set '┼' CROSS < CROSS.length :=
  ⟨by decide, by decide,
    parse_position_lookup_succeeds '┼' CROSS (by decide) (by decide)⟩

/-! ## Claim C4 -/

/-- C4: the sizer returns `Some(layout)` exactly when the layout its growth
loop finished with has capacity at least the requested bit length and both
dimensions within their max bounds, and `None` exactly otherwise — never a
default layout. -/
theorem layout_byte_length_some_iff (len : Nat) (config : Option BoxLayoutConfig) :
    (∀ L, layout_byte_length len config = some L ↔
      (L = sizedLayout len config ∧ len * 8 ≤ L.calculate_bits ∧
        L.height ≤ resolvedMaxHeight len config ∧
        L.width ≤ resolvedMaxWidth len config)) ∧
    (layout_byte_length len config = none ↔
      ¬ (len * 8 ≤ (sizedLayout len config).calculate_bits ∧
        (sizedLayout len config).height ≤ resolvedMaxHeight len config ∧
        (sizedLayout len config).width ≤ resolvedMaxWidth len config)) := by
  constructor
  · intro L
    constructor
    · intro h
      unfold layout_byte_length at h
      split at h
      · rename_i hcond
        injection h with h
        subst h
        exact ⟨rfl, hcond⟩
      · cases h
    · rintro ⟨rfl, h2, h3, h4⟩
      unfold layout_byte_length
      rw [if_pos ⟨h2, h3, h4⟩]
  · unfold layout_byte_length
    split
    · rename_i hcond
      simp [hcond]
    · rename_i hcond
      simp [hcond]

/-- C4 witness: the default sizing of a single byte succeeds and its result
satisfies the success condition. -/
theorem layout_byte_length_some_iff_witness :
    layout_byte_length 1 none = some (sizedLayout 1 none) :=
  ((layout_byte_length_some_iff 1 none).1 _).mpr
    ⟨rfl, by decide, by decide, by decide⟩

/-! ## Claim C5 -/

set_option maxRecDepth 10000 in
/-- C5: sizing a 150-byte (1200-bit) payload under `max_width = 80`,
`max_height = 5` yields a 68 × 5 layout of capacity exactly 1214 bits. -/
theorem layout_byte_length_150 :
    (layout_byte_length 150 (some cfg150)).map BoxLayout.width = some 68 ∧
    (layout_byte_length 150 (some cfg150)).map BoxLayout.height = some 5 ∧
    (layout_byte_length 150 (some cfg150)).map BoxLayout.calculate_bits = some 1214 := by
  decide

/-! ## Claim C3 -/

theorem ite_two_eq_two_mul (c : Prop) [Decidable c] :
    (if c then 2 else 0) = 2 * (if c then 1 else 0) := by
  by_cases h : c <;> simp [h]

theorem sum_shift_pairs (f : Nat → Prop) [DecidablePred f] (c n : Nat) :
    (∑ x ∈ Finset.range n, if f x ∧ 0 < x ∧ f (x - 1) then c else 0) =
    (∑ x ∈ Finset.range n, if f x ∧ x + 1 < n ∧ f (x + 1) then c else 0) := by
  cases n with
  | zero => simp
  | succ m =>
    rw [Finset.sum_range_succ', Finset.sum_range_succ]
    have hL0 : (if f 0 ∧ 0 < 0 ∧ f (0 - 1) then c else 0) = 0 := by simp
    have hRm : (if f m ∧ m + 1 < m + 1 ∧ f (m + 1) then c else 0) = 0 := by simp
    rw [hL0, hRm, Nat.add_zero, Nat.add_zero]
    refine Finset.sum_congr rfl (fun k hk => ?_)
    rw [Finset.mem_range] at hk
    have hiff : (f (k + 1) ∧ 0 < k + 1 ∧ f (k + 1 - 1)) ↔
        (f k ∧ k + 1 < m + 1 ∧ f (k + 1)) := by
      constructor
      · rintro ⟨h1, -, h3⟩
        exact ⟨by simpa using h3, by omega, h1⟩
      · rintro ⟨h1, -, h3⟩
        exact ⟨h3, by omega, by simpa using h1⟩
    simp only [hiff]

theorem rowlen_eq (L : BoxLayout) (hrect : Rectangular L) {y : Nat} (hy : y < L.height) :
    (L.rows.getD y []).length = L.width := by
  have hmem : L.rows.getD y [] ∈ L.rows := by
    rw [List.getD_eq_getElem?_getD, List.getElem?_eq_getElem hy]
    exact List.getElem_mem _
  exact hrect _ hmem

theorem calculate_bits_eq_sum (L : BoxLayout) (hrect : Rectangular L) :
    L.calculate_bits = ∑ y ∈ Finset.range L.height, ∑ x ∈ Finset.range L.width,
      ((if L.is_filled x y ∧ x + 1 < L.width ∧ L.is_filled (x + 1) y then 2 else 0) +
       (if L.is_filled x y ∧ y + 1 < L.height ∧ L.is_filled x (y + 1) then 2 else 0)) := by
  unfold BoxLayout.calculate_bits
  rw [sum_map_range]
  refine Finset.sum_congr rfl (fun y hy => ?_)
  rw [Finset.mem_range] at hy
  rw [rowlen_eq L hrect hy, sum_map_range]
  refine Finset.sum_congr rfl (fun x hx => ?_)
  rw [Finset.mem_range] at hx
  have hxiff : x < L.width - 1 ↔ x + 1 < L.width := by omega
  have hyiff : y < L.height - 1 ↔ y + 1 < L.height := by omega
  by_cases hf : L.cellD x y = FILLED <;>
    simp [BoxLayout.is_filled, hf, hxiff, hyiff, and_assoc]

theorem ite_one_zero_eq_toNat (p : Prop) [Decidable p] :
    (if p then (1 : Nat) else 0) = (decide p).toNat := by
  by_cases h : p <;> simp [h]

theorem connWidthAt_split (L : BoxLayout) (x y : Nat)
    (hne : L.is_filled x y → filledNeighbors L x y ≠ 1) :
    connWidthAt L x y =
      (((if L.is_filled x y ∧ (x < L.width - 1 ∧ L.is_filled (x + 1) y) then 1 else 0) +
        (if L.is_filled x y ∧ (0 < x ∧ L.is_filled (x - 1) y) then 1 else 0)) +
       ((if L.is_filled x y ∧ (y < L.height - 1 ∧ L.is_filled x (y + 1)) then 1 else 0) +
        (if L.is_filled x y ∧ (0 < y ∧ L.is_filled x (y - 1)) then 1 else 0))) := by
  by_cases hf : L.is_filled x y
  · have hne1 := hne hf
    unfold filledNeighbors at hne1
    unfold connWidthAt BoxLayout.get_connections_at
    rw [if_pos hf]
    simp only [hf, true_and, ite_one_zero_eq_toNat] at hne1 ⊢
    cases hb1 : decide (x < L.width - 1 ∧ L.is_filled (x + 1) y) <;>
      cases hb2 : decide (0 < x ∧ L.is_filled (x - 1) y) <;>
        cases hb3 : decide (y < L.height - 1 ∧ L.is_filled x (y + 1)) <;>
          cases hb4 : decide (0 < y ∧ L.is_filled x (y - 1)) <;>
            rw [hb1, hb2, hb3, hb4] at hne1 <;>
              simp_all [Connections.get_bits]
  · unfold connWidthAt BoxLayout.get_connections_at
    rw [if_neg hf]
    simp [hf]

theorem connectivityWidthSum_eq_sum (L : BoxLayout) :
    connectivityWidthSum L = ∑ y ∈ Finset.range L.height, ∑ x ∈ Finset.range L.width,
      connWidthAt L x y := by
  unfold connectivityWidthSum
  rw [sum_map_range]
  exact Finset.sum_congr rfl (fun y _ => sum_map_range _ _)

/-- C3 (amended): on every rectangular layout in which no filled cell has
exactly one filled neighbor, `calculate_bits` equals the sum over all cells
of the bit-width of the cell's connectivity class (0 for cells without a
class).  (On layouts with a degree-1 filled cell the two sides differ: the
adjacency still counts 2 bits in `calculate_bits` but neither endpoint need
have a class — see the counterexample.) -/
theorem calculate_bits_eq_connectivityWidthSum (L : BoxLayout)
    (hrect : Rectangular L) (hlone : NoLoneCell L) :
    L.calculate_bits = connectivityWidthSum L := by
  have hconn : connectivityWidthSum L =
      ∑ y ∈ Finset.range L.height, ∑ x ∈ Finset.range L.width,
        (((if L.is_filled x y ∧ x + 1 < L.width ∧ L.is_filled (x + 1) y then 1 else 0) +
          (if L.is_filled x y ∧ 0 < x ∧ L.is_filled (x - 1) y then 1 else 0)) +
         ((if L.is_filled x y ∧ y + 1 < L.height ∧ L.is_filled x (y + 1) then 1 else 0) +
          (if L.is_filled x y ∧ 0 < y ∧ L.is_filled x (y - 1) then 1 else 0))) := by
    rw [connectivityWidthSum_eq_sum]
    refine Finset.sum_congr rfl (fun y hy => Finset.sum_congr rfl (fun x hx => ?_))
    rw [Finset.mem_range] at hy hx
    rw [connWidthAt_split L x y (hlone x hx y hy)]
    have c1 : (L.is_filled x y ∧ (x < L.width - 1 ∧ L.is_filled (x + 1) y)) ↔
        (L.is_filled x y ∧ x + 1 < L.width ∧ L.is_filled (x + 1) y) := by
      constructor <;> (rintro ⟨a, b, c⟩; exact ⟨a, by omega, c⟩)
    have c3 : (L.is_filled x y ∧ (y < L.height - 1 ∧ L.is_filled x (y + 1))) ↔
        (L.is_filled x y ∧ y + 1 < L.height ∧ L.is_filled x (y + 1)) := by
      constructor <;> (rintro ⟨a, b, c⟩; exact ⟨a, by omega, c⟩)
    simp only [c1, c3]
  have hcalc := calculate_bits_eq_sum L hrect
  -- aggregate the four directional indicator sums
  have hLR : (∑ y ∈ Finset.range L.height, ∑ x ∈ Finset.range L.width,
      (if L.is_filled x y ∧ 0 < x ∧ L.is_filled (x - 1) y then 1 else 0)) =
      (∑ y ∈ Finset.range L.height, ∑ x ∈ Finset.range L.width,
      (if L.is_filled x y ∧ x + 1 < L.width ∧ L.is_filled (x + 1) y then 1 else 0)) :=
    Finset.sum_congr rfl (fun y _ => sum_shift_pairs (fun x => L.is_filled x y) 1 L.width)
  have hUD : (∑ y ∈ Finset.range L.height, ∑ x ∈ Finset.range L.width,
      (if L.is_filled x y ∧ 0 < y ∧ L.is_filled x (y - 1) then 1 else 0)) =
      (∑ y ∈ Finset.range L.height, ∑ x ∈ Finset.range L.width,
      (if L.is_filled x y ∧ y + 1 < L.height ∧ L.is_filled x (y + 1) then 1 else 0)) := by
    rw [Finset.sum_comm]
    conv_rhs => rw [Finset.sum_comm]
    exact Finset.sum_congr rfl (fun x _ => sum_shift_pairs (fun y => L.is_filled x y) 1 L.height)
  rw [hconn, hcalc]
  simp only [ite_two_eq_two_mul]
  simp only [Finset.sum_add_distrib]
  simp only [← Finset.mul_sum]
  rw [hLR, hUD]
  omega

/-- C3 counterexample: on the one-row layout `##` (two filled cells, each
with exactly one filled neighbor), `calculate_bits` is 2 but the sum of
per-cell connectivity widths is 0, so the claimed equality fails as stated
for arbitrary layouts. -/
theorem calculate_bits_ne_connectivityWidthSum_cex :
    (BoxLayout.mk [["#", "#"]]).calculate_bits = 2 ∧
    connectivityWidthSum (BoxLayout.mk [["#", "#"]]) = 0 ∧
    ¬ ((BoxLayout.mk [["#", "#"]]).calculate_bits =
        connectivityWidthSum (BoxLayout.mk [["#", "#"]])) := by
  refine ⟨by decide, by decide, by decide⟩

/-- C3 witness: the 3 × 2 all-filled layout satisfies both hypotheses and the
amended equality. -/
theorem calculate_bits_eq_connectivityWidthSum_witness :
    Rectangular (BoxLayout.new 3 2) ∧ NoLoneCell (BoxLayout.new 3 2) ∧
      (BoxLayout.new 3 2).calculate_bits = connectivityWidthSum (BoxLayout.new 3 2) :=
  ⟨by decide, by decide,
    calculate_bits_eq_connectivityWidthSum (BoxLayout.new 3 2) (by decide) (by decide)⟩

/-! ## Codec accumulator invariants (claims C10 and C1) -/

theorem connWidths_cons_none (rest : List (Option Connections)) :
    connWidths (none :: rest) = connWidths rest := by
  simp [connWidths]

theorem connWidths_cons_some (c : Connections) (rest : List (Option Connections)) :
    connWidths (some c :: rest) = c.get_bits :: connWidths rest := by
  simp [connWidths]

theorem connWidths_eq_map_connClasses (cells : List (Option Connections)) :
    connWidths cells = (connClasses cells).map Connections.get_bits := by
  induction cells with
  | nil => rfl
  | cons c rest ih => cases c <;> simp [connWidths, connClasses] at ih ⊢ <;> exact ih

theorem familyChars_length (c : Connections) :
    c.familyChars.length = 2 ^ c.get_bits := by
  cases c <;> rfl

theorem zip_append_left {α β : Type} (l1 l2 : List α) :
    ∀ l : List β, (l1 ++ l2).zip l = l1.zip l ++ l2.zip (l.drop l1.length) := by
  induction l1 with
  | nil => intro l; simp
  | cons a l1 ih =>
    intro l
    cases l with
    | nil => simp
    | cons b l => simp [ih]

theorem map_snd_zip_take {α β : Type} (ps : List α) :
    ∀ ws : List β, (ps.zip ws).map Prod.snd = ws.take ps.length := by
  induction ps with
  | nil => intro ws; simp
  | cons p ps ih =>
    intro ws
    cases ws with
    | nil => simp
    | cons w ws => simp [ih]

theorem pairVal_append (A B : List (Nat × Nat)) :
    pairVal (A ++ B) = pairVal A + pairVal B * 2 ^ ((A.map Prod.snd).sum) := by
  induction A with
  | nil => simp [pairVal]
  | cons pw A ih =>
    obtain ⟨p, w⟩ := pw
    show pairVal ((p, w) :: (A ++ B)) = _
    simp only [pairVal, List.map_cons, List.sum_cons]
    rw [ih, pow_add]
    ring

/-- The `'push_bits` loop invariant: the emitted points pair with the widths
of the consumed connected cells, recombine (with the residual accumulator
shifted past them) to the incoming accumulator, and each point is below its
cell's range; the residual accumulator stays below `2 ^ offset`. -/
theorem pushPoints_spec :
    ∀ (cells : List (Option Connections)) (bits offset : Nat), bits < 2 ^ offset →
    (pushPoints cells bits offset).1.length ≤ (connWidths cells).length ∧
    connWidths (pushPoints cells bits offset).2.1 =
      (connWidths cells).drop (pushPoints cells bits offset).1.length ∧
    pairVal ((pushPoints cells bits offset).1.zip (connWidths cells)) +
      (pushPoints cells bits offset).2.2.1 *
        2 ^ (((connWidths cells).take (pushPoints cells bits offset).1.length).sum) =
      bits ∧
    (pushPoints cells bits offset).2.2.2 +
      ((connWidths cells).take (pushPoints cells bits offset).1.length).sum = offset ∧
    (pushPoints cells bits offset).2.2.1 < 2 ^ (pushPoints cells bits offset).2.2.2 ∧
    List.Forall₂ (fun p w => p < 2 ^ w) (pushPoints cells bits offset).1
      ((connWidths cells).take (pushPoints cells bits offset).1.length) := by
  intro cells
  induction cells with
  | nil =>
    intro bits offset hb
    simp [pushPoints, pairVal, hb]
  | cons c rest ih =>
    intro bits offset hb
    match c with
    | none =>
      rw [connWidths_cons_none]
      by_cases h0 : offset = 0
      · simp only [pushPoints, if_pos h0]
        subst h0
        have hb0 : bits = 0 := by simpa using hb
        subst hb0
        simp [pairVal, connWidths_cons_none]
      · simp only [pushPoints, if_neg h0]
        exact ih bits offset hb
    | some conn =>
      rw [connWidths_cons_some]
      by_cases hw : conn.get_bits ≤ offset
      · have hlt : bits % 2 ^ conn.get_bits < 2 ^ conn.get_bits :=
          Nat.mod_lt _ (Nat.pos_pow_of_pos _ (by omega))
        have hdiv : bits / 2 ^ conn.get_bits < 2 ^ (offset - conn.get_bits) := by
          rw [Nat.div_lt_iff_lt_mul (Nat.pos_pow_of_pos _ (by omega)), ← pow_add]
          have : offset - conn.get_bits + conn.get_bits = offset := by omega
          rw [this]
          exact hb
        by_cases h0 : offset - conn.get_bits = 0
        · simp only [pushPoints, if_pos hw, if_pos h0]
          refine ⟨by simp, by simp, ?_, ?_, ?_, ?_⟩
          · simp only [List.zip_cons_cons, List.zip_nil_left, pairVal,
              List.length_singleton, List.take_succ_cons, List.take_zero,
              List.sum_cons, List.sum_nil, Nat.add_zero]
            have := Nat.mod_add_div' bits (2 ^ conn.get_bits)
            omega
          · simp only [List.length_singleton, List.take_succ_cons, List.take_zero,
              List.sum_cons, List.sum_nil]
            omega
          · rw [h0] at hdiv
            simpa using hdiv
          · simp only [List.length_singleton, List.take_succ_cons, List.take_zero]
            exact List.Forall₂.cons hlt List.Forall₂.nil
        · simp only [pushPoints, if_pos hw, if_neg h0]
          obtain ⟨ihlen, ihrest, ihval, ihoff, ihbits, ihfit⟩ :=
            ih (bits / 2 ^ conn.get_bits) (offset - conn.get_bits) hdiv
          set r := pushPoints rest (bits / 2 ^ conn.get_bits) (offset - conn.get_bits)
            with hr
          refine ⟨by simpa using Nat.succ_le_succ ihlen, by simpa using ihrest, ?_, ?_,
            ihbits, ?_⟩
          · have hzip : ((bits % 2 ^ conn.get_bits) :: r.1).zip
                (conn.get_bits :: connWidths rest) =
                (bits % 2 ^ conn.get_bits, conn.get_bits) ::
                  (r.1.zip (connWidths rest)) := rfl
            rw [hzip]
            simp only [pairVal, List.length_cons, List.take_succ_cons, List.sum_cons]
            rw [pow_add]
            have hregroup : bits % 2 ^ conn.get_bits +
                pairVal (r.1.zip (connWidths rest)) * 2 ^ conn.get_bits +
                r.2.2.1 * (2 ^ conn.get_bits *
                  2 ^ (List.take r.1.length (connWidths rest)).sum) =
                bits % 2 ^ conn.get_bits + 2 ^ conn.get_bits *
                  (pairVal (r.1.zip (connWidths rest)) +
                    r.2.2.1 * 2 ^ (List.take r.1.length (connWidths rest)).sum) := by
              ring
            rw [hregroup, ihval]
            exact Nat.mod_add_div bits (2 ^ conn.get_bits)
          · simp only [List.length_cons, List.take_succ_cons, List.sum_cons]
            omega
          · simp only [List.length_cons, List.take_succ_cons]
            exact List.Forall₂.cons hlt ihfit
      · have hps : pushPoints (some conn :: rest) bits offset =
            ([], some conn :: rest, bits, offset) := by
          simp [pushPoints, hw]
        rw [hps]
        refine ⟨by simp, ?_, by simp [pairVal, hb], by simp, hb, by simp⟩
        rw [connWidths_cons_some]
        simp

/-- The byte-loop invariant of `bytes_to_points`: after feeding the whole
byte list, the emitted points (paired with the widths of the consumed
connected cells) together with the residual accumulator recombine to the
little-endian value of the bytes, and each point fits its cell's width. -/
theorem bytesGo_spec :
    ∀ (bs : List Nat) (cells : List (Option Connections)) (bits offset : Nat),
      bits < 2 ^ offset → (∀ b ∈ bs, b < 256) →
      ∃ bitsF offF,
        (bytesGo cells bits offset bs).length ≤ (connWidths cells).length ∧
        pairVal ((bytesGo cells bits offset bs).zip (connWidths cells)) +
          bitsF *
            2 ^ (((connWidths cells).take (bytesGo cells bits offset bs).length).sum) =
          bits + byteVal bs * 2 ^ offset ∧
        offF + ((connWidths cells).take (bytesGo cells bits offset bs).length).sum =
          offset + 8 * bs.length ∧
        bitsF < 2 ^ offF ∧
        List.Forall₂ (fun p w => p < 2 ^ w) (bytesGo cells bits offset bs)
          ((connWidths cells).take (bytesGo cells bits offset bs).length) := by
  intro bs
  induction bs with
  | nil =>
    intro cells bits offset hb _
    refine ⟨bits, offset, ?_⟩
    simp [bytesGo, pairVal, byteVal, hb]
  | cons b bs ih =>
    intro cells bits offset hb hbytes
    have hb256 : b < 256 := hbytes b (List.mem_cons_self b bs)
    have hin : bits + b * 2 ^ offset < 2 ^ (offset + 8) := by
      have h1 : (b + 1) * 2 ^ offset = b * 2 ^ offset + 2 ^ offset := by ring
      have h2 : (b + 1) * 2 ^ offset ≤ 256 * 2 ^ offset :=
        Nat.mul_le_mul_right _ (by omega)
      have h3 : (256 : Nat) * 2 ^ offset = 2 ^ (offset + 8) := by
        rw [pow_add]; ring
      omega
    obtain ⟨plen, prest, pval, poff, pbits, pfit⟩ :=
      pushPoints_spec cells (bits + b * 2 ^ offset) (offset + 8) hin
    obtain ⟨bitsF, offF, ihlen, ihval, ihoff, ihbitsF, ihfit⟩ :=
      ih (pushPoints cells (bits + b * 2 ^ offset) (offset + 8)).2.1
        (pushPoints cells (bits + b * 2 ^ offset) (offset + 8)).2.2.1
        (pushPoints cells (bits + b * 2 ^ offset) (offset + 8)).2.2.2
        pbits (fun x hx => hbytes x (List.mem_cons_of_mem _ hx))
    refine ⟨bitsF, offF, ?_, ?_, ?_, ihbitsF, ?_⟩ <;>
      simp only [bytesGo]
    · -- length bound
      rw [List.length_append]
      rw [prest, List.length_drop] at ihlen
      omega
    · -- value equation
      rw [zip_append_left, pairVal_append, map_snd_zip_take, List.length_append,
        List.take_add, List.sum_append]
      rw [← prest] at *
      set st := pushPoints cells (bits + b * 2 ^ offset) (offset + 8) with hst
      set ps2 := bytesGo st.2.1 st.2.2.1 st.2.2.2 bs with hps2
      set ws := connWidths cells with hws
      set ws2 := connWidths st.2.1 with hws2
      set S1 := (ws.take st.1.length).sum with hS1
      set S2 := (ws2.take ps2.length).sum with hS2
      rw [pow_add]
      have key1 : pairVal (st.1.zip ws) + pairVal (ps2.zip ws2) * 2 ^ S1 +
          bitsF * (2 ^ S1 * 2 ^ S2) =
          pairVal (st.1.zip ws) +
            (pairVal (ps2.zip ws2) + bitsF * 2 ^ S2) * 2 ^ S1 := by ring
      rw [key1, ihval]
      have key2 : pairVal (st.1.zip ws) +
          (st.2.2.1 + byteVal bs * 2 ^ st.2.2.2) * 2 ^ S1 =
          (pairVal (st.1.zip ws) + st.2.2.1 * 2 ^ S1) +
            byteVal bs * (2 ^ st.2.2.2 * 2 ^ S1) := by ring
      rw [key2, pval]
      have key3 : 2 ^ st.2.2.2 * 2 ^ S1 = 2 ^ offset * 256 := by
        rw [← pow_add, poff, pow_add]
        norm_num
      rw [key3, byteVal]
      ring
    · -- offset accounting
      rw [List.length_append, List.take_add, List.sum_append, ← prest]
      simp only [List.length_cons]
      omega
    · -- per-point fit
      rw [List.length_append, List.take_add, ← prest]
      exact List.rel_append pfit ihfit

/-! ## Claim C10 -/

/-- C10: every point emitted by `bytes_to_points` is strictly below
`2 ^ w` for the bit-width `w` of the class of the connected cell it is
assigned to (the i-th point goes with the i-th connected cell of the
row-major walk), and hence also indexes inside that class's glyph family, so
the glyph lookup of the renderer never fails. -/
theorem bytes_to_points_fit (L : BoxLayout) (bytes : List Nat)
    (hbytes : ∀ b ∈ bytes, b < 256) :
    List.Forall₂
      (fun p (c : Connections) => p < 2 ^ c.get_bits ∧ p < c.familyChars.length)
      (L.bytes_to_points bytes)
      ((connClasses (connList L)).take (L.bytes_to_points bytes).length) := by
  simp only [BoxLayout.bytes_to_points]
  obtain ⟨bitsF, offF, hlen, hval, hoff, hb, hfit⟩ :=
    bytesGo_spec bytes (connList L) 0 0 (by simp) hbytes
  rw [connWidths_eq_map_connClasses, ← List.map_take, List.forall₂_map_right_iff] at hfit
  refine List.Forall₂.imp (fun p c h => ⟨h, ?_⟩) hfit
  rw [familyChars_length]
  exact h

/-- C10 witness: a concrete byte on the 2 × 2 layout. -/
theorem bytes_to_points_fit_witness :
    (∀ b ∈ [85], b < 256) ∧
      List.Forall₂
        (fun p (c : Connections) => p < 2 ^ c.get_bits ∧ p < c.familyChars.length)
        ((BoxLayout.new 2 2).bytes_to_points [85])
        ((connClasses (connList (BoxLayout.new 2 2))).take
          ((BoxLayout.new 2 2).bytes_to_points [85]).length) :=
  ⟨by decide, bytes_to_points_fit (BoxLayout.new 2 2) [85] (by decide)⟩

/-! ## Sizer structure lemmas (claims C6 and C7) -/

theorem getD_set_self {α : Type} (l : List α) (i : Nat) (v d : α) :
    (l.set i v).getD i d = if i < l.length then v else d := by
  rw [List.getD_eq_getElem?_getD]
  by_cases h : i < l.length
  · rw [List.getElem?_set_self h]
    simp [h]
  · rw [List.getElem?_eq_none (by simpa using h)]
    simp [h]

theorem getD_set_of_ne {α : Type} (l : List α) {i j : Nat} (h : i ≠ j) (v d : α) :
    (l.set i v).getD j d = l.getD j d := by
  rw [List.getD_eq_getElem?_getD, List.getElem?_set_ne h, ← List.getD_eq_getElem?_getD]

theorem utf8ByteSize_go_ge_length (l : List Char) :
    l.length ≤ String.utf8ByteSize.go l := by
  induction l with
  | nil => simp [String.utf8ByteSize.go]
  | cons c cs ih =>
    have hc := Char.utf8Size_pos c
    simp only [String.utf8ByteSize.go, List.length_cons]
    omega

theorem data_length_le_utf8ByteSize (s : String) :
    s.data.length ≤ s.utf8ByteSize := by
  obtain ⟨l⟩ := s
  exact utf8ByteSize_go_ge_length l

theorem base_le_foldl_max {α : Type} (f : α → Nat) :
    ∀ (l : List α) (base : Nat), base ≤ l.foldl (fun m b => max m (f b)) base := by
  intro l
  induction l with
  | nil => intro base; simp
  | cons a l ih =>
    intro base
    exact le_trans (le_max_left base (f a)) (ih (max base (f a)))

theorem le_foldl_max {α : Type} (f : α → Nat) (l : List α) :
    ∀ (base : Nat), ∀ x ∈ l, f x ≤ l.foldl (fun m b => max m (f b)) base := by
  induction l with
  | nil => intro base x hx; cases hx
  | cons a l ih =>
    intro base x hx
    rcases List.mem_cons.mp hx with rfl | hx
    · exact le_trans (le_max_right base (f x)) (base_le_foldl_max f l _)
    · exact ih _ x hx

theorem writeChars_length (t l : Nat) :
    ∀ (chs : List Char) (i0 : Nat) (rows : List (List String)),
      (writeChars t l chs i0 rows).length = rows.length := by
  intro chs
  induction chs with
  | nil => intro i0 rows; rfl
  | cons c cs ih =>
    intro i0 rows
    rw [writeChars, ih, List.length_set]

theorem writeChars_row_length (t l : Nat) :
    ∀ (chs : List Char) (i0 : Nat) (rows : List (List String)) (j : Nat),
      ((writeChars t l chs i0 rows).getD j []).length = (rows.getD j []).length := by
  intro chs
  induction chs with
  | nil => intro i0 rows j; rfl
  | cons c cs ih =>
    intro i0 rows j
    rw [writeChars, ih]
    by_cases hj : t = j
    · subst hj
      rw [getD_set_self]
      by_cases ht : t < rows.length
      · simp [ht, List.length_set]
      · rw [if_neg ht, List.getD_eq_getElem?_getD,
          List.getElem?_eq_none (by omega)]
        rfl
    · rw [getD_set_of_ne _ hj]

theorem writeChars_cellD_preserve (t l : Nat) :
    ∀ (chs : List Char) (i0 : Nat) (rows : List (List String)) (x y : Nat),
      (y ≠ t ∨ x < l + i0 ∨ l + i0 + chs.length ≤ x) →
      ((writeChars t l chs i0 rows).getD y []).getD x "" =
        (rows.getD y []).getD x "" := by
  intro chs
  induction chs with
  | nil => intro i0 rows x y _; rfl
  | cons c cs ih =>
    intro i0 rows x y hout
    rw [writeChars]
    have hout2 : y ≠ t ∨ x < l + (i0 + 1) ∨ l + (i0 + 1) + cs.length ≤ x := by
      rcases hout with h | h | h
      · exact Or.inl h
      · exact Or.inr (Or.inl (by omega))
      · simp only [List.length_cons] at h
        exact Or.inr (Or.inr (by omega))
    rw [ih (i0 + 1) _ x y hout2]
    by_cases hy : y = t
    · subst hy
      rw [getD_set_self]
      by_cases hyl : y < rows.length
      · simp only [if_pos hyl]
        have hx : l + i0 ≠ x := by
          rcases hout with h | h | h
          · exact absurd rfl h
          · omega
          · simp only [List.length_cons] at h; omega
        rw [getD_set_of_ne _ hx]
      · rw [if_neg hyl]
        have hrow : rows.getD y [] = [] := by
          rw [List.getD_eq_getElem?_getD, List.getElem?_eq_none (by omega)]
          rfl
        rw [hrow]
    · rw [getD_set_of_ne _ (fun h => hy h.symm)]

theorem overlay_foldl_length (bl : List (Nat × Nat × String)) :
    ∀ rows : List (List String), (bl.foldl overlayOne rows).length = rows.length := by
  induction bl with
  | nil => intro rows; rfl
  | cons b bl ih =>
    intro rows
    rw [List.foldl_cons, ih]
    exact writeChars_length _ _ _ _ _

theorem overlay_foldl_row_length (bl : List (Nat × Nat × String)) :
    ∀ (rows : List (List String)) (j : Nat),
      ((bl.foldl overlayOne rows).getD j []).length = (rows.getD j []).length := by
  induction bl with
  | nil => intro rows j; rfl
  | cons b bl ih =>
    intro rows j
    rw [List.foldl_cons, ih]
    exact writeChars_row_length _ _ _ _ _ _

theorem overlay_foldl_cellD_right (x : Nat) :
    ∀ (bl : List (Nat × Nat × String)),
      (∀ b ∈ bl, b.1 + b.2.2.data.length ≤ x) →
      ∀ (rows : List (List String)) (y : Nat),
        ((bl.foldl overlayOne rows).getD y []).getD x "" =
          (rows.getD y []).getD x "" := by
  intro bl
  induction bl with
  | nil => intro _ rows y; rfl
  | cons b bl ih =>
    intro hx rows y
    rw [List.foldl_cons, ih (fun c hc => hx c (List.mem_cons_of_mem _ hc))]
    exact writeChars_cellD_preserve _ _ _ 0 rows x y
      (Or.inr (Or.inr (by have := hx b (List.mem_cons_self _ _); omega)))

theorem initLayout_height (config : Option BoxLayoutConfig) :
    (initLayout config).height = resolvedMinHeight config := by
  show ((blackoutsOf config).foldl overlayOne _).length = _
  rw [overlay_foldl_length]
  simp [BoxLayout.new]

theorem initLayout_row_length (config : Option BoxLayoutConfig) (j : Nat) :
    ((initLayout config).rows.getD j []).length =
      if j < resolvedMinHeight config then resolvedMinWidth config else 0 := by
  show (((blackoutsOf config).foldl overlayOne _).getD j []).length = _
  rw [overlay_foldl_row_length]
  by_cases hj : j < resolvedMinHeight config
  · rw [rows_new_getD hj, List.length_replicate, if_pos hj]
  · have hnone : (BoxLayout.new (resolvedMinWidth config)
        (resolvedMinHeight config)).rows.getD j [] = [] := by
      rw [List.getD_eq_getElem?_getD, List.getElem?_eq_none
        (by simp [BoxLayout.new]; omega)]
      rfl
    rw [hnone, if_neg hj]
    rfl

theorem initLayout_width (config : Option BoxLayoutConfig)
    (hh : 1 ≤ resolvedMinHeight config) :
    (initLayout config).width = resolvedMinWidth config := by
  show ((initLayout config).rows.getD 0 []).length = _
  rw [initLayout_row_length, if_pos (by omega)]

theorem initLayout_rect (config : Option BoxLayoutConfig)
    (hh : 1 ≤ resolvedMinHeight config) :
    Rectangular (initLayout config) := by
  intro row hrow
  obtain ⟨i, hi, hrw⟩ := List.mem_iff_getElem.mp hrow
  have hgd : (initLayout config).rows.getD i [] = row := by
    rw [List.getD_eq_getElem?_getD, List.getElem?_eq_getElem hi]
    exact hrw
  have hi2 : i < resolvedMinHeight config := by
    have := initLayout_height config
    simp only [BoxLayout.height] at this
    omega
  rw [← hgd, initLayout_row_length, if_pos hi2, initLayout_width config hh]

theorem initLayout_inv (config : Option BoxLayoutConfig)
    (hw : 1 ≤ resolvedMinWidth config) (hh : 1 ≤ resolvedMinHeight config) :
    GrowInv (initLayout config) := by
  refine ⟨initLayout_rect config hh, ?_, ?_, ?_⟩
  · rw [initLayout_width config hh]; exact hw
  · rw [initLayout_height config]; exact hh
  · intro y hy
    rw [initLayout_height config] at hy
    rw [initLayout_width config hh]
    show (((blackoutsOf config).foldl overlayOne _).getD y []).getD
      (resolvedMinWidth config - 1) "" = FILLED
    rw [overlay_foldl_cellD_right _ _ ?hbound]
    case hbound =>
      intro b hb
      have h1 : b.1 + b.2.2.utf8ByteSize + 1 ≤ resolvedMinWidth config :=
        le_foldl_max (fun b => b.1 + b.2.2.utf8ByteSize + 1) _ _ b hb
      have h2 : b.2.2.data.length ≤ b.2.2.utf8ByteSize :=
        data_length_le_utf8ByteSize b.2.2
      omega
    exact cellD_new (by omega) hy

theorem rowAppend_height (L : BoxLayout) :
    (BoxLayout.mk (L.rows ++ [List.replicate L.width FILLED])).height = L.height + 1 := by
  simp [BoxLayout.height]

theorem rowAppend_width (L : BoxLayout) (hh : 1 ≤ L.height) :
    (BoxLayout.mk (L.rows ++ [List.replicate L.width FILLED])).width = L.width := by
  show ((L.rows ++ [List.replicate L.width FILLED]).getD 0 []).length = _
  rw [List.getD_append _ _ _ 0 hh]
  rfl

theorem rowAppend_cellD_lt (L : BoxLayout) (x y : Nat) (hy : y < L.height) :
    (BoxLayout.mk (L.rows ++ [List.replicate L.width FILLED])).cellD x y =
      L.cellD x y := by
  show ((L.rows ++ [List.replicate L.width FILLED]).getD y []).getD x "" = _
  rw [List.getD_append _ _ _ y hy]
  rfl

theorem rowAppend_cellD_top (L : BoxLayout) (x : Nat) (hx : x < L.width) :
    (BoxLayout.mk (L.rows ++ [List.replicate L.width FILLED])).cellD x L.height =
      FILLED := by
  show ((L.rows ++ [List.replicate L.width FILLED]).getD L.rows.length []).getD x "" = _
  rw [List.getD_append_right _ _ _ _ (le_refl _), Nat.sub_self]
  exact getD_replicate_of_lt _ _ hx

theorem rowAppend_rect (L : BoxLayout) (hrect : Rectangular L) (hh : 1 ≤ L.height) :
    Rectangular (BoxLayout.mk (L.rows ++ [List.replicate L.width FILLED])) := by
  intro row hrow
  rw [rowAppend_width L hh]
  rcases List.mem_append.mp hrow with h | h
  · exact hrect row h
  · rw [List.mem_singleton.mp h]
    exact List.length_replicate _ _

theorem rowAppend_inv (L : BoxLayout) (hinv : GrowInv L) :
    GrowInv (BoxLayout.mk (L.rows ++ [List.replicate L.width FILLED])) := by
  obtain ⟨hrect, hw, hh, hlast⟩ := hinv
  refine ⟨rowAppend_rect L hrect hh, ?_, ?_, ?_⟩
  · rw [rowAppend_width L hh]; exact hw
  · rw [rowAppend_height]; omega
  · intro y hy
    rw [rowAppend_height] at hy
    rw [rowAppend_width L hh]
    by_cases hylt : y < L.height
    · rw [rowAppend_cellD_lt L _ _ hylt]
      exact hlast y hylt
    · have hyeq : y = L.height := by omega
      subst hyeq
      exact rowAppend_cellD_top L _ (by omega)

theorem colAppend_height (L : BoxLayout) :
    (BoxLayout.mk (L.rows.map (fun row => row ++ [FILLED]))).height = L.height := by
  simp [BoxLayout.height]

theorem rows_getD_eq_getElem (L : BoxLayout) {y : Nat} (hy : y < L.rows.length) :
    L.rows.getD y [] = L.rows[y] := by
  rw [List.getD_eq_getElem?_getD, List.getElem?_eq_getElem hy]
  rfl

theorem colAppend_cellD_row (L : BoxLayout) (y : Nat) (hy : y < L.height) :
    (BoxLayout.mk (L.rows.map (fun row => row ++ [FILLED]))).rows.getD y [] =
      (L.rows.getD y []) ++ [FILLED] := by
  show (L.rows.map (fun row => row ++ [FILLED])).getD y [] = _
  rw [List.getD_eq_getElem?_getD, List.getElem?_map, List.getElem?_eq_getElem hy]
  rw [rows_getD_eq_getElem L hy]
  rfl

theorem colAppend_width (L : BoxLayout) (hh : 1 ≤ L.height) :
    (BoxLayout.mk (L.rows.map (fun row => row ++ [FILLED]))).width = L.width + 1 := by
  show ((BoxLayout.mk (L.rows.map (fun row => row ++ [FILLED]))).rows.getD 0 []).length = _
  rw [colAppend_cellD_row L 0 hh, List.length_append]
  rfl

theorem colAppend_cellD_lt (L : BoxLayout) (hrect : Rectangular L) (x y : Nat)
    (hx : x < L.width) (hy : y < L.height) :
    (BoxLayout.mk (L.rows.map (fun row => row ++ [FILLED]))).cellD x y =
      L.cellD x y := by
  show ((BoxLayout.mk (L.rows.map (fun row => row ++ [FILLED]))).rows.getD y []).getD x "" = _
  rw [colAppend_cellD_row L y hy]
  have hlen : (L.rows.getD y []).length = L.width := by
    rw [rows_getD_eq_getElem L hy]
    exact hrect _ (List.getElem_mem _)
  rw [List.getD_append _ _ _ x (by omega)]
  rfl

theorem colAppend_cellD_new (L : BoxLayout) (hrect : Rectangular L) (y : Nat)
    (hy : y < L.height) :
    (BoxLayout.mk (L.rows.map (fun row => row ++ [FILLED]))).cellD L.width y =
      FILLED := by
  show ((BoxLayout.mk (L.rows.map (fun row => row ++ [FILLED]))).rows.getD y []).getD L.width "" = _
  rw [colAppend_cellD_row L y hy]
  have hlen : (L.rows.getD y []).length = L.width := by
    rw [rows_getD_eq_getElem L hy]
    exact hrect _ (List.getElem_mem _)
  rw [List.getD_append_right _ _ _ _ (by omega), hlen, Nat.sub_self]
  rfl

theorem colAppend_rect (L : BoxLayout) (hrect : Rectangular L) (hh : 1 ≤ L.height) :
    Rectangular (BoxLayout.mk (L.rows.map (fun row => row ++ [FILLED]))) := by
  intro row hrow
  rw [colAppend_width L hh]
  obtain ⟨r, hr, rfl⟩ := List.mem_map.mp hrow
  rw [List.length_append, hrect r hr]
  rfl

theorem colAppend_inv (L : BoxLayout) (hinv : GrowInv L) :
    GrowInv (BoxLayout.mk (L.rows.map (fun row => row ++ [FILLED]))) := by
  obtain ⟨hrect, hw, hh, hlast⟩ := hinv
  refine ⟨colAppend_rect L hrect hh, ?_, ?_, ?_⟩
  · rw [colAppend_width L hh]; omega
  · rw [colAppend_height]; exact hh
  · intro y hy
    rw [colAppend_height] at hy
    rw [colAppend_width L hh, Nat.add_sub_cancel]
    exact colAppend_cellD_new L hrect y hy

theorem rowAppend_calc_lt (L : BoxLayout) (hinv : GrowInv L) :
    L.calculate_bits <
      (BoxLayout.mk (L.rows ++ [List.replicate L.width FILLED])).calculate_bits := by
  obtain ⟨hrect, hw, hh, hlast⟩ := hinv
  set L2 := BoxLayout.mk (L.rows ++ [List.replicate L.width FILLED]) with hL2
  have hH : L2.height = L.height + 1 := rowAppend_height L
  have hW : L2.width = L.width := rowAppend_width L hh
  have hcell : ∀ x y, y < L.height → L2.cellD x y = L.cellD x y :=
    fun x y hy => rowAppend_cellD_lt L x y hy
  have htop : ∀ x, x < L.width → L2.cellD x L.height = FILLED :=
    fun x hx => rowAppend_cellD_top L x hx
  have hrect2 : Rectangular L2 := rowAppend_rect L hrect hh
  rw [calculate_bits_eq_sum L hrect, calculate_bits_eq_sum L2 hrect2, hH, hW,
    Finset.sum_range_succ]
  have hfil : ∀ x y, y < L.height → (L2.is_filled x y ↔ L.is_filled x y) := by
    intro x y hy
    unfold BoxLayout.is_filled
    rw [hcell x y hy]
  refine lt_of_lt_of_le ?_ (Nat.le_add_right _ _)
  refine Finset.sum_lt_sum (fun y hy => ?_) ⟨L.height - 1, Finset.mem_range.mpr (by omega), ?_⟩
  · -- pointwise row inequality
    rw [Finset.mem_range] at hy
    refine Finset.sum_le_sum (fun x hx => ?_)
    rw [Finset.mem_range] at hx
    have h1 : (if L.is_filled x y ∧ x + 1 < L.width ∧ L.is_filled (x + 1) y then 2 else 0) =
        (if L2.is_filled x y ∧ x + 1 < L.width ∧ L2.is_filled (x + 1) y then 2 else 0) := by
      have := hfil x y hy
      have := hfil (x + 1) y hy
      by_cases hc : L.is_filled x y ∧ x + 1 < L.width ∧ L.is_filled (x + 1) y
      · rw [if_pos hc, if_pos (by tauto)]
      · rw [if_neg hc, if_neg (by tauto)]
    have h2 : (if L.is_filled x y ∧ y + 1 < L.height ∧ L.is_filled x (y + 1) then 2 else 0) ≤
        (if L2.is_filled x y ∧ y + 1 < L.height + 1 ∧ L2.is_filled x (y + 1) then 2 else 0) := by
      by_cases hc : L.is_filled x y ∧ y + 1 < L.height ∧ L.is_filled x (y + 1)
      · obtain ⟨hc1, hc2, hc3⟩ := hc
        rw [if_pos ⟨hc1, hc2, hc3⟩, if_pos ⟨(hfil x y hy).mpr hc1, by omega,
          (hfil x (y + 1) hc2).mpr hc3⟩]
      · rw [if_neg hc]
        exact Nat.zero_le _
    omega
  · -- strict at the last old row
    have hy1 : L.height - 1 < L.height := by omega
    refine Finset.sum_lt_sum (fun x hx => ?_) ⟨L.width - 1, Finset.mem_range.mpr (by omega), ?_⟩
    · rw [Finset.mem_range] at hx
      have h1 : (if L.is_filled x (L.height - 1) ∧ x + 1 < L.width ∧
            L.is_filled (x + 1) (L.height - 1) then 2 else 0) =
          (if L2.is_filled x (L.height - 1) ∧ x + 1 < L.width ∧
            L2.is_filled (x + 1) (L.height - 1) then 2 else 0) := by
        have := hfil x (L.height - 1) hy1
        have := hfil (x + 1) (L.height - 1) hy1
        by_cases hc : L.is_filled x (L.height - 1) ∧ x + 1 < L.width ∧
            L.is_filled (x + 1) (L.height - 1)
        · rw [if_pos hc, if_pos (by tauto)]
        · rw [if_neg hc, if_neg (by tauto)]
      have h2 : (if L.is_filled x (L.height - 1) ∧ L.height - 1 + 1 < L.height ∧
            L.is_filled x (L.height - 1 + 1) then 2 else 0) ≤
          (if L2.is_filled x (L.height - 1) ∧ L.height - 1 + 1 < L.height + 1 ∧
            L2.is_filled x (L.height - 1 + 1) then 2 else 0) := by
        by_cases hc : L.is_filled x (L.height - 1) ∧ L.height - 1 + 1 < L.height ∧
            L.is_filled x (L.height - 1 + 1)
        · omega
        · rw [if_neg hc]
          exact Nat.zero_le _
      omega
    · -- the cell (width-1, height-1) gains its downward neighbor
      have h1 : (if L.is_filled (L.width - 1) (L.height - 1) ∧ L.width - 1 + 1 < L.width ∧
            L.is_filled (L.width - 1 + 1) (L.height - 1) then 2 else 0) =
          (if L2.is_filled (L.width - 1) (L.height - 1) ∧ L.width - 1 + 1 < L.width ∧
            L2.is_filled (L.width - 1 + 1) (L.height - 1) then 2 else 0) := by
        have := hfil (L.width - 1) (L.height - 1) hy1
        have := hfil (L.width - 1 + 1) (L.height - 1) hy1
        by_cases hc : L.is_filled (L.width - 1) (L.height - 1) ∧ L.width - 1 + 1 < L.width ∧
            L.is_filled (L.width - 1 + 1) (L.height - 1)
        · rw [if_pos hc, if_pos (by tauto)]
        · rw [if_neg hc, if_neg (by tauto)]
      have h2 : (if L.is_filled (L.width - 1) (L.height - 1) ∧ L.height - 1 + 1 < L.height ∧
            L.is_filled (L.width - 1) (L.height - 1 + 1) then 2 else 0) = 0 := by
        rw [if_neg]
        rintro ⟨-, hlt, -⟩
        omega
      have h3 : (if L2.is_filled (L.width - 1) (L.height - 1) ∧
            L.height - 1 + 1 < L.height + 1 ∧
            L2.is_filled (L.width - 1) (L.height - 1 + 1) then 2 else 0) = 2 := by
        rw [if_pos]
        refine ⟨?_, by omega, ?_⟩
        · show L2.cellD (L.width - 1) (L.height - 1) = FILLED
          rw [hcell _ _ hy1]
          exact hlast _ hy1
        · show L2.cellD (L.width - 1) (L.height - 1 + 1) = FILLED
          have hstep : L.height - 1 + 1 = L.height := by omega
          rw [hstep]
          exact htop _ (by omega)
      omega

theorem colAppend_calc_lt (L : BoxLayout) (hinv : GrowInv L) :
    L.calculate_bits <
      (BoxLayout.mk (L.rows.map (fun row => row ++ [FILLED]))).calculate_bits := by
  obtain ⟨hrect, hw, hh, hlast⟩ := hinv
  set L2 := BoxLayout.mk (L.rows.map (fun row => row ++ [FILLED])) with hL2
  have hH : L2.height = L.height := colAppend_height L
  have hW : L2.width = L.width + 1 := colAppend_width L hh
  have hcell : ∀ x y, x < L.width → y < L.height → L2.cellD x y = L.cellD x y :=
    fun x y hx hy => colAppend_cellD_lt L hrect x y hx hy
  have hnew : ∀ y, y < L.height → L2.cellD L.width y = FILLED :=
    fun y hy => colAppend_cellD_new L hrect y hy
  have hrect2 : Rectangular L2 := colAppend_rect L hrect hh
  rw [calculate_bits_eq_sum L hrect, calculate_bits_eq_sum L2 hrect2, hH, hW]
  refine Finset.sum_lt_sum_of_nonempty ⟨0, Finset.mem_range.mpr (by omega)⟩
    (fun y hy => ?_)
  rw [Finset.mem_range] at hy
  rw [Finset.sum_range_succ]
  refine lt_of_lt_of_le ?_ (Nat.le_add_right _ _)
  have hfil : ∀ x y2, x < L.width → y2 < L.height →
      (L2.is_filled x y2 ↔ L.is_filled x y2) := by
    intro x y2 hx hy2
    unfold BoxLayout.is_filled
    rw [hcell x y2 hx hy2]
  refine Finset.sum_lt_sum (fun x hx => ?_)
    ⟨L.width - 1, Finset.mem_range.mpr (by omega), ?_⟩
  · rw [Finset.mem_range] at hx
    have h1 : (if L.is_filled x y ∧ x + 1 < L.width ∧ L.is_filled (x + 1) y then 2 else 0) ≤
        (if L2.is_filled x y ∧ x + 1 < L.width + 1 ∧ L2.is_filled (x + 1) y then 2 else 0) := by
      by_cases hc : L.is_filled x y ∧ x + 1 < L.width ∧ L.is_filled (x + 1) y
      · obtain ⟨hc1, hc2, hc3⟩ := hc
        rw [if_pos ⟨hc1, hc2, hc3⟩, if_pos ⟨(hfil x y hx hy).mpr hc1, by omega,
          (hfil (x + 1) y hc2 hy).mpr hc3⟩]
      · rw [if_neg hc]
        exact Nat.zero_le _
    have h2 : (if L.is_filled x y ∧ y + 1 < L.height ∧ L.is_filled x (y + 1) then 2 else 0) =
        (if L2.is_filled x y ∧ y + 1 < L.height ∧ L2.is_filled x (y + 1) then 2 else 0) := by
      by_cases hc : L.is_filled x y ∧ y + 1 < L.height ∧ L.is_filled x (y + 1)
      · obtain ⟨hc1, hc2, hc3⟩ := hc
        rw [if_pos ⟨hc1, hc2, hc3⟩, if_pos ⟨(hfil x y hx hy).mpr hc1, hc2,
          (hfil x (y + 1) hx hc2).mpr hc3⟩]
      · rw [if_neg hc, if_neg]
        intro hc2
        exact hc ⟨(hfil x y hx hy).mp hc2.1, hc2.2.1,
          (hfil x (y + 1) hx hc2.2.1).mp hc2.2.2⟩
    omega
  · -- the cell (width-1, y) gains its rightward neighbor
    have h1 : (if L.is_filled (L.width - 1) y ∧ L.width - 1 + 1 < L.width ∧
          L.is_filled (L.width - 1 + 1) y then 2 else 0) = 0 := by
      rw [if_neg]
      rintro ⟨-, hlt, -⟩
      omega
    have h2 : (if L2.is_filled (L.width - 1) y ∧ L.width - 1 + 1 < L.width + 1 ∧
          L2.is_filled (L.width - 1 + 1) y then 2 else 0) = 2 := by
      rw [if_pos]
      refine ⟨?_, by omega, ?_⟩
      · show L2.cellD (L.width - 1) y = FILLED
        rw [hcell _ _ (by omega) hy]
        exact hlast _ hy
      · show L2.cellD (L.width - 1 + 1) y = FILLED
        have hstep : L.width - 1 + 1 = L.width := by omega
        rw [hstep]
        exact hnew _ hy
    have h3 : (if L.is_filled (L.width - 1) y ∧ y + 1 < L.height ∧
          L.is_filled (L.width - 1) (y + 1) then 2 else 0) ≤
        (if L2.is_filled (L.width - 1) y ∧ y + 1 < L.height ∧
          L2.is_filled (L.width - 1) (y + 1) then 2 else 0) := by
      by_cases hc : L.is_filled (L.width - 1) y ∧ y + 1 < L.height ∧
          L.is_filled (L.width - 1) (y + 1)
      · obtain ⟨hc1, hc2, hc3⟩ := hc
        rw [if_pos ⟨hc1, hc2, hc3⟩, if_pos ⟨(hfil _ y (by omega) hy).mpr hc1, hc2,
          (hfil _ (y + 1) (by omega) hc2).mpr hc3⟩]
      · rw [if_neg hc]
        exact Nat.zero_le _
    omega

theorem growStep_facts (L : BoxLayout) (hinv : GrowInv L) (maxw maxh : Nat) (a : ℚ) :
    GrowInv (growStep maxw maxh a L) ∧
    L.width ≤ (growStep maxw maxh a L).width ∧
    L.height ≤ (growStep maxw maxh a L).height ∧
    (growStep maxw maxh a L).width + (growStep maxw maxh a L).height =
      L.width + L.height + 1 ∧
    L.calculate_bits < (growStep maxw maxh a L).calculate_bits := by
  obtain ⟨hrect, hw, hh, hlast⟩ := hinv
  unfold growStep
  split
  · refine ⟨rowAppend_inv L ⟨hrect, hw, hh, hlast⟩, ?_, ?_, ?_,
      rowAppend_calc_lt L ⟨hrect, hw, hh, hlast⟩⟩
    · rw [rowAppend_width L hh]
    · rw [rowAppend_height]; omega
    · rw [rowAppend_width L hh, rowAppend_height]; omega
  · refine ⟨colAppend_inv L ⟨hrect, hw, hh, hlast⟩, ?_, ?_, ?_,
      colAppend_calc_lt L ⟨hrect, hw, hh, hlast⟩⟩
    · rw [colAppend_width L hh]; omega
    · rw [colAppend_height]
    · rw [colAppend_width L hh, colAppend_height]; omega

theorem sizerIter_inv (len : Nat) (config : Option BoxLayoutConfig)
    (hw : 1 ≤ resolvedMinWidth config) (hh : 1 ≤ resolvedMinHeight config) :
    ∀ k, GrowInv (sizerIter len config k) := by
  intro k
  induction k with
  | zero => exact initLayout_inv config hw hh
  | succ k ih =>
    show GrowInv (sizerIter len config (k + 1))
    unfold sizerIter
    rw [Function.iterate_succ_apply']
    show GrowInv (sizerStep _ _ _ _ (sizerIter len config k))
    unfold sizerStep
    split
    · exact (growStep_facts _ ih _ _ _).1
    · exact ih

/-! ## Claim C6 -/

/-- C6: at every iteration of the sizer's growth loop that the loop guard
admits, the width and the height never decrease (exactly one of them grows
by 1) and the capacity strictly increases — for every request and config
whose resolved minimum dimensions are at least 1 (which includes every
config with `min_width`/`min_height` unset, set to 1, or with blackouts). -/
theorem sizer_growth_monotone (len : Nat) (config : Option BoxLayoutConfig) (k : Nat)
    (hw : 1 ≤ resolvedMinWidth config) (hh : 1 ≤ resolvedMinHeight config)
    (hguard : growGuard (len * 8) (resolvedMaxWidth len config)
      (resolvedMaxHeight len config) (sizerIter len config k)) :
    (sizerIter len config k).width ≤ (sizerIter len config (k + 1)).width ∧
    (sizerIter len config k).height ≤ (sizerIter len config (k + 1)).height ∧
    (sizerIter len config (k + 1)).width + (sizerIter len config (k + 1)).height =
      (sizerIter len config k).width + (sizerIter len config k).height + 1 ∧
    (sizerIter len config k).calculate_bits <
      (sizerIter len config (k + 1)).calculate_bits := by
  have hinv := sizerIter_inv len config hw hh k
  have hstep : sizerIter len config (k + 1) =
      growStep (resolvedMaxWidth len config) (resolvedMaxHeight len config)
        (resolvedAspect config) (sizerIter len config k) := by
    show (sizerStep _ _ _ _)^[k + 1] _ = _
    rw [Function.iterate_succ_apply']
    show sizerStep _ _ _ _ (sizerIter len config k) = _
    unfold sizerStep
    rw [if_pos hguard]
  rw [hstep]
  obtain ⟨-, h1, h2, h3, h4⟩ := growStep_facts _ hinv (resolvedMaxWidth len config)
    (resolvedMaxHeight len config) (resolvedAspect config)
  exact ⟨h1, h2, h3, h4⟩

/-- C6 witness: the first growth iteration of the default sizing of 8
bytes. -/
theorem sizer_growth_monotone_witness :
    (1 ≤ resolvedMinWidth none ∧ 1 ≤ resolvedMinHeight none ∧
      growGuard (8 * 8) (resolvedMaxWidth 8 none) (resolvedMaxHeight 8 none)
        (sizerIter 8 none 0)) ∧
    (sizerIter 8 none 0).width ≤ (sizerIter 8 none 1).width ∧
    (sizerIter 8 none 0).height ≤ (sizerIter 8 none 1).height ∧
    (sizerIter 8 none 1).width + (sizerIter 8 none 1).height =
      (sizerIter 8 none 0).width + (sizerIter 8 none 0).height + 1 ∧
    (sizerIter 8 none 0).calculate_bits < (sizerIter 8 none 1).calculate_bits :=
  ⟨⟨by decide, by decide, by decide⟩,
    sizer_growth_monotone 8 none 0 (by decide) (by decide) (by decide)⟩

/-! ## Renderer space accounting (claim C8) -/

theorem get_character_ne_space (c : Connections) (p : Nat) :
    c.get_character p ≠ ' ' := by
  unfold Connections.get_character
  by_cases h : p < c.familyChars.length
  · have hall : ∀ x ∈ c.familyChars, x ≠ ' ' := by cases c <;> decide
    refine hall _ ?_
    rw [List.getD_eq_getElem?_getD, List.getElem?_eq_getElem h]
    exact List.getElem_mem _
  · rw [List.getD_eq_getElem?_getD, List.getElem?_eq_none (by omega)]
    decide

theorem space_not_mem_nlAfter (L : BoxLayout) (x y : Nat) :
    ' ' ∉ nlAfter L x y := by
  unfold nlAfter
  split_ifs <;> simp

theorem count_space_nlAfter (L : BoxLayout) (x y : Nat) :
    (nlAfter L x y).count ' ' = 0 :=
  List.count_eq_zero.mpr (space_not_mem_nlAfter L x y)

theorem phase1_rest_suffix (L : BoxLayout) :
    ∀ (cells : List (Nat × Nat)) (ps : List Nat),
      (phase1 L cells ps).2 <:+ cells := by
  intro cells
  induction cells with
  | nil =>
    intro ps
    cases ps with
    | nil => exact List.suffix_refl _
    | cons p ps => exact List.nil_suffix
  | cons xy rest ih =>
    intro ps
    cases ps with
    | nil => exact List.suffix_refl _
    | cons p ps =>
      obtain ⟨x, y⟩ := xy
      show (phase1 L ((x, y) :: rest) (p :: ps)).2 <:+ _
      rw [phase1]
      rcases hbl : L.get_blackout_at x y with - | s
      · rcases hcn : L.get_connections_at x y with - | c
        · exact (ih (p :: ps)).trans (List.suffix_cons _ _)
        · exact (ih ps).trans (List.suffix_cons _ _)
      · exact (ih (p :: ps)).trans (List.suffix_cons _ _)

theorem phase1_count_space (L : BoxLayout) :
    ∀ (cells : List (Nat × Nat)) (ps : List Nat),
      (∀ xy ∈ cells, ∀ s, L.get_blackout_at xy.1 xy.2 = some s → ' ' ∉ s.data) →
      ((phase1 L cells ps).1).count ' ' = 0 := by
  intro cells
  induction cells with
  | nil =>
    intro ps _
    cases ps <;> rfl
  | cons xy rest ih =>
    intro ps hsp
    cases ps with
    | nil => rfl
    | cons p ps =>
      obtain ⟨x, y⟩ := xy
      have hsp' : ∀ xy ∈ rest, ∀ s, L.get_blackout_at xy.1 xy.2 = some s →
          ' ' ∉ s.data := fun xy hxy => hsp xy (List.mem_cons_of_mem _ hxy)
      show ((phase1 L ((x, y) :: rest) (p :: ps)).1).count ' ' = 0
      rw [phase1]
      rcases hbl : L.get_blackout_at x y with - | s
      · rcases hcn : L.get_connections_at x y with - | c
        · simp only [List.count_append, count_space_nlAfter, ih (p :: ps) hsp']
        · simp only [List.count_cons, List.count_append, count_space_nlAfter,
            ih ps hsp']
          have := get_character_ne_space c p
          simp [this]
      · have hnos : ' ' ∉ s.data := hsp (x, y) (List.mem_cons_self _ _) s hbl
        simp only [List.count_append, count_space_nlAfter,
          List.count_eq_zero.mpr hnos, ih (p :: ps) hsp']

theorem phase2_count_space (L : BoxLayout) :
    ∀ cells : List (Nat × Nat),
      (∀ xy ∈ cells, ∀ s, L.get_blackout_at xy.1 xy.2 = some s → ' ' ∉ s.data) →
      (phase2 L cells).count ' ' =
        List.countP (fun xy => (L.get_blackout_at xy.1 xy.2).isNone &&
          (L.get_connections_at xy.1 xy.2).isNone) cells := by
  intro cells
  induction cells with
  | nil => intro _; rfl
  | cons xy rest ih =>
    intro hsp
    obtain ⟨x, y⟩ := xy
    have hsp' : ∀ xy ∈ rest, ∀ s, L.get_blackout_at xy.1 xy.2 = some s →
        ' ' ∉ s.data := fun xy hxy => hsp xy (List.mem_cons_of_mem _ hxy)
    show (phase2 L ((x, y) :: rest)).count ' ' = _
    rw [phase2, List.countP_cons]
    rcases hcn : L.get_connections_at x y with - | c
    · rcases hbl : L.get_blackout_at x y with - | s
      · simp only [List.count_append, count_space_nlAfter, ih hsp', hbl, hcn]
        simp only [Option.isNone_none, Bool.and_self, if_pos]
        simp
        omega
      · have hnos : ' ' ∉ s.data := hsp (x, y) (List.mem_cons_self _ _) s hbl
        simp only [List.count_append, count_space_nlAfter,
          List.count_eq_zero.mpr hnos, ih hsp', hbl, hcn]
        simp
    · simp only [List.count_append, count_space_nlAfter, ih hsp', hcn]
      have := get_character_ne_space c 0
      simp [List.count_cons, this]

/-! ## Claim C8 -/

/-- C8 (amended): rendering emits exactly one space for each cell that is
neither a blackout cell nor has a connectivity class *among the cells
visited after the point sequence is exhausted* (the trailing phase of
`display_bytes`); such cells passed while payload points are still being
emitted produce no output at all.  (Hypothesis: no blackout fragment
contains a space of its own.) -/
theorem display_bytes_space_count (L : BoxLayout) (bytes : List Nat)
    (hsp : SpaceFreeBlackouts L) :
    (L.display_bytes bytes).count ' ' =
      List.countP (fun xy => (L.get_blackout_at xy.1 xy.2).isNone &&
          (L.get_connections_at xy.1 xy.2).isNone)
        ((phase1 L (rowMajor L) (L.bytes_to_points bytes)).2) := by
  have hsp1 : ∀ xy ∈ rowMajor L, ∀ s, L.get_blackout_at xy.1 xy.2 = some s →
      ' ' ∉ s.data := hsp
  have hsuffix := phase1_rest_suffix L (rowMajor L) (L.bytes_to_points bytes)
  have hsp2 : ∀ xy ∈ (phase1 L (rowMajor L) (L.bytes_to_points bytes)).2, ∀ s,
      L.get_blackout_at xy.1 xy.2 = some s → ' ' ∉ s.data :=
    fun xy hxy => hsp1 xy (hsuffix.subset hxy)
  show ((phase1 L (rowMajor L) (L.bytes_to_points bytes)).1 ++
      phase2 L (phase1 L (rowMajor L) (L.bytes_to_points bytes)).2).count ' ' = _
  rw [List.count_append, phase1_count_space L _ _ hsp1,
    phase2_count_space L _ hsp2, Nat.zero_add]

/-- C8 counterexample: on a layout whose first column is filled but isolated
by a blackout column, rendering one byte produces *no* space at all although
two cells are neither blackout nor connected — the original claim would
require two spaces. -/
theorem display_bytes_space_cex :
    (cexLayoutC8.display_bytes [255]).count ' ' = 0 ∧
    List.countP (fun xy => (cexLayoutC8.get_blackout_at xy.1 xy.2).isNone &&
        (cexLayoutC8.get_connections_at xy.1 xy.2).isNone)
      (rowMajor cexLayoutC8) = 2 := by
  constructor <;> decide

/-- C8 witness: the same layout with no payload renders every cell in the
trailing phase, producing exactly the two spaces. -/
theorem display_bytes_space_count_witness :
    SpaceFreeBlackouts cexLayoutC8 ∧
      (cexLayoutC8.display_bytes []).count ' ' =
        List.countP (fun xy => (cexLayoutC8.get_blackout_at xy.1 xy.2).isNone &&
            (cexLayoutC8.get_connections_at xy.1 xy.2).isNone)
          ((phase1 cexLayoutC8 (rowMajor cexLayoutC8)
            (cexLayoutC8.bytes_to_points [])).2) :=
  ⟨by decide, display_bytes_space_count cexLayoutC8 [] (by decide)⟩

/-! ## Blackout preservation (claim C7) -/

theorem blackout_not_filled (L : BoxLayout) {x y : Nat} {s : String}
    (hs : L.get_blackout_at x y = some s) : ¬ L.is_filled x y := by
  unfold BoxLayout.get_blackout_at at hs
  cases hrow : L.rows.get? y with
  | none => rw [hrow] at hs; simp at hs
  | some row =>
    rw [hrow] at hs
    simp only [Option.some_bind] at hs
    cases hcell : row.get? x with
    | none => rw [hcell] at hs; simp at hs
    | some cell =>
      rw [hcell] at hs
      simp only [Option.some_bind] at hs
      split at hs
      · cases hs
      · rename_i hne
        have hcs : cell = s := Option.some.inj hs
        have h1 : L.rows.getD y [] = row := by
          rw [List.getD_eq_getElem?_getD, ← List.get?_eq_getElem?, hrow]
          rfl
        have h2 : L.cellD x y = cell := by
          show (L.rows.getD y []).getD x "" = cell
          rw [h1, List.getD_eq_getElem?_getD, ← List.get?_eq_getElem?, hcell]
          rfl
        intro hf
        exact hne (h2.symm.trans hf)

theorem blackout_conn_none (L : BoxLayout) {x y : Nat} {s : String}
    (hs : L.get_blackout_at x y = some s) : L.get_connections_at x y = none := by
  unfold BoxLayout.get_connections_at
  rw [if_neg (blackout_not_filled L hs)]

theorem get_blackout_at_of_cellD (L : BoxLayout) (hrect : Rectangular L)
    {x y : Nat} (hx : x < L.width) (hy : y < L.height) (hne : L.cellD x y ≠ FILLED) :
    L.get_blackout_at x y = some (L.cellD x y) := by
  have hy' : y < L.rows.length := hy
  have hrow : L.rows.getD y [] = L.rows[y] := rows_getD_eq_getElem L hy'
  have hlen : (L.rows[y]).length = L.width := hrect _ (L.rows.getElem_mem _)
  have hx' : x < (L.rows[y]).length := by rw [hlen]; exact hx
  have hcell : L.cellD x y = (L.rows[y])[x] := by
    show (L.rows.getD y []).getD x "" = _
    rw [hrow, List.getD_eq_getElem?_getD, List.getElem?_eq_getElem hx']
    rfl
  unfold BoxLayout.get_blackout_at
  rw [List.get?_eq_getElem?, List.getElem?_eq_getElem hy']
  simp only [Option.some_bind]
  rw [List.get?_eq_getElem?, List.getElem?_eq_getElem hx']
  simp only [Option.some_bind]
  rw [if_neg (by rw [← hcell]; exact hne), hcell]

theorem displayOut_cons_blackout (L : BoxLayout) (x y : Nat) (s : String)
    (hs : L.get_blackout_at x y = some s) (rest : List (Nat × Nat)) (ps : List Nat) :
    displayOut L ((x, y) :: rest) ps =
      s.data ++ (nlAfter L x y ++ displayOut L rest ps) := by
  cases ps with
  | nil =>
    show (phase1 L ((x, y) :: rest) []).1 ++ phase2 L (phase1 L ((x, y) :: rest) []).2 =
      _ ++ (_ ++ ((phase1 L rest []).1 ++ phase2 L (phase1 L rest []).2))
    rw [phase1, phase1]
    show phase2 L ((x, y) :: rest) = s.data ++ (nlAfter L x y ++ phase2 L rest)
    rw [phase2, blackout_conn_none L hs, hs]
    simp [List.append_assoc]
  | cons p ps =>
    show (phase1 L ((x, y) :: rest) (p :: ps)).1 ++
        phase2 L (phase1 L ((x, y) :: rest) (p :: ps)).2 = _
    rw [phase1, hs]
    show s.data ++ nlAfter L x y ++ (phase1 L rest (p :: ps)).1 ++
        phase2 L (phase1 L rest (p :: ps)).2 = _
    simp [displayOut, List.append_assoc]

theorem displayOut_cons_step (L : BoxLayout) (x y : Nat) (rest : List (Nat × Nat))
    (ps : List Nat) :
    ∃ em ps2, displayOut L ((x, y) :: rest) ps = em ++ displayOut L rest ps2 := by
  cases ps with
  | nil =>
    refine ⟨(match L.get_connections_at x y with
      | some c => [c.get_character 0]
      | none => match L.get_blackout_at x y with
        | some s => s.data
        | none => [' ']) ++ nlAfter L x y, [], ?_⟩
    show (phase1 L ((x, y) :: rest) []).1 ++ phase2 L (phase1 L ((x, y) :: rest) []).2 =
      _ ++ ((phase1 L rest []).1 ++ phase2 L (phase1 L rest []).2)
    rw [phase1, phase1]
    show phase2 L ((x, y) :: rest) = _ ++ ([] ++ phase2 L rest)
    rw [phase2]
    simp [List.append_assoc]
  | cons p ps =>
    rcases hbl : L.get_blackout_at x y with - | s
    · rcases hcn : L.get_connections_at x y with - | c
      · refine ⟨nlAfter L x y, p :: ps, ?_⟩
        show (phase1 L ((x, y) :: rest) (p :: ps)).1 ++
          phase2 L (phase1 L ((x, y) :: rest) (p :: ps)).2 = _
        rw [phase1, hbl, hcn]
        simp [displayOut, List.append_assoc]
      · refine ⟨c.get_character p :: nlAfter L x y, ps, ?_⟩
        show (phase1 L ((x, y) :: rest) (p :: ps)).1 ++
          phase2 L (phase1 L ((x, y) :: rest) (p :: ps)).2 = _
        rw [phase1, hbl, hcn]
        simp [displayOut, List.append_assoc]
    · refine ⟨s.data ++ nlAfter L x y, p :: ps, ?_⟩
      rw [displayOut_cons_blackout L x y s hbl]
      simp [List.append_assoc]

theorem displayOut_run (L : BoxLayout) :
    ∀ (chs : List Char) (x y : Nat) (B : List (Nat × Nat)) (ps : List Nat),
      (∀ j < chs.length, L.get_blackout_at (x + j) y = some ((chs.getD j ' ').toString)) →
      (∀ j < chs.length, nlAfter L (x + j) y = []) →
      displayOut L (runCells x y chs.length ++ B) ps = chs ++ displayOut L B ps := by
  intro chs
  induction chs with
  | nil => intro x y B ps _ _; rfl
  | cons c cs ih =>
    intro x y B ps hbl hnl
    have h0 : L.get_blackout_at x y = some c.toString := by
      have := hbl 0 (by simp)
      simpa using this
    have hn0 : nlAfter L x y = [] := by
      have := hnl 0 (by simp)
      simpa using this
    show displayOut L ((x, y) :: (runCells (x + 1) y cs.length ++ B)) ps = _
    rw [displayOut_cons_blackout L x y _ h0, hn0,
      ih (x + 1) y B ps ?hb ?hn]
    case hb =>
      intro j hj
      have := hbl (j + 1) (by simpa using Nat.succ_lt_succ hj)
      rw [show x + (j + 1) = x + 1 + j by omega] at this
      simpa using this
    case hn =>
      intro j hj
      have := hnl (j + 1) (by simpa using Nat.succ_lt_succ hj)
      rw [show x + (j + 1) = x + 1 + j by omega] at this
      exact this
    rfl

theorem displayOut_pre (L : BoxLayout) (chs : List Char) (x y : Nat)
    (hbl : ∀ j < chs.length, L.get_blackout_at (x + j) y = some ((chs.getD j ' ').toString))
    (hnl : ∀ j < chs.length, nlAfter L (x + j) y = []) :
    ∀ (A B : List (Nat × Nat)) (ps : List Nat),
      ∃ pre post, displayOut L (A ++ (runCells x y chs.length ++ B)) ps =
        pre ++ (chs ++ post) := by
  intro A
  induction A with
  | nil =>
    intro B ps
    exact ⟨[], displayOut L B ps, by
      rw [List.nil_append, displayOut_run L chs x y B ps hbl hnl]
      rfl⟩
  | cons uv A ih =>
    intro B ps
    obtain ⟨u, v⟩ := uv
    obtain ⟨em, ps2, hstep⟩ :=
      displayOut_cons_step L u v (A ++ (runCells x y chs.length ++ B)) ps
    obtain ⟨pre, post, hih⟩ := ih B ps2
    exact ⟨em ++ pre, post, by rw [List.cons_append, hstep, hih, List.append_assoc]⟩

theorem infix_of_mem_flatMap {α β : Type} (f : α → List β) {a : α} :
    ∀ {l : List α}, a ∈ l → f a <:+: l.flatMap f := by
  intro l
  induction l with
  | nil => intro h; cases h
  | cons b l ih =>
    intro h
    rcases List.mem_cons.mp h with rfl | h
    · exact ⟨[], l.flatMap f, by rw [List.flatMap_cons]; rfl⟩
    · exact (ih h).trans (List.suffix_append (f b) (l.flatMap f)).isInfix

theorem isInfix_map {α β : Type} (f : α → β) {l l' : List α} (h : l <:+: l') :
    l.map f <:+: l'.map f := by
  obtain ⟨s, t, rfl⟩ := h
  exact ⟨s.map f, t.map f, by simp⟩

theorem range_append_my :
    ∀ (m s n : Nat), List.range' s m ++ List.range' (s + m) n = List.range' s (m + n) := by
  intro m
  induction m with
  | zero => intro s n; simp
  | succ m ih =>
    intro s n
    show s :: (List.range' (s + 1) m ++ List.range' (s + (m + 1)) n) = _
    rw [show s + (m + 1) = s + 1 + m by omega, ih (s + 1) n,
      show m + 1 + n = (m + n) + 1 by omega]
    rfl

theorem runCells_eq_range (y : Nat) :
    ∀ (n x : Nat), runCells x y n = (List.range' x n).map (fun u => (u, y)) := by
  intro n
  induction n with
  | zero => intro x; rfl
  | succ n ih =>
    intro x
    show (x, y) :: runCells (x + 1) y n = _
    rw [ih (x + 1)]
    rfl

theorem rowMajor_decomp (L : BoxLayout) (x y n : Nat)
    (hy : y < L.height) (hxn : x + n ≤ L.width) :
    ∃ A B, rowMajor L = A ++ (runCells x y n ++ B) := by
  have h1 : runCells x y n <:+: (List.range L.width).map (fun u => (u, y)) := by
    rw [runCells_eq_range y n x]
    refine isInfix_map _ ?_
    rw [List.range_eq_range']
    refine ⟨List.range' 0 x, List.range' (x + n) (L.width - x - n), ?_⟩
    rw [List.append_assoc, range_append_my n x (L.width - x - n)]
    rw [show List.range' x (n + (L.width - x - n)) = List.range' (0 + x) (L.width - x) by
      rw [Nat.zero_add, show n + (L.width - x - n) = L.width - x by omega]]
    rw [range_append_my x 0 (L.width - x), show x + (L.width - x) = L.width by omega]
  have h2 : (List.range L.width).map (fun u => (u, y)) <:+: rowMajor L := by
    show _ <:+: (List.range L.height).flatMap
      (fun v => (List.range L.width).map (fun u => (u, v)))
    exact infix_of_mem_flatMap
      (fun v => (List.range L.width).map (fun u => (u, v)))
      (List.mem_range.mpr hy)
  obtain ⟨A, B, hAB⟩ := h1.trans h2
  exact ⟨A, B, by rw [← hAB, List.append_assoc]⟩

theorem writeChars_cellD_write (t l : Nat) :
    ∀ (chs : List Char) (i0 : Nat) (rows : List (List String)) (j : Nat),
      j < chs.length → t < rows.length →
      l + i0 + chs.length ≤ (rows.getD t []).length →
      ((writeChars t l chs i0 rows).getD t []).getD (l + i0 + j) "" =
        (chs.getD j ' ').toString := by
  intro chs
  induction chs with
  | nil => intro i0 rows j hj _ _; cases hj
  | cons c cs ih =>
    intro i0 rows j hj ht hrow
    simp only [List.length_cons] at hrow
    rw [writeChars]
    cases j with
    | zero =>
      rw [writeChars_cellD_preserve t l cs (i0 + 1) _ (l + i0 + 0) t
        (Or.inr (Or.inl (by omega)))]
      rw [getD_set_self, if_pos ht, Nat.add_zero, getD_set_self,
        if_pos (by omega)]
      rfl
    | succ j =>
      have hx : l + i0 + (j + 1) = l + (i0 + 1) + j := by omega
      rw [hx, ih (i0 + 1) _ j (by simpa using hj)
        (by rw [List.length_set]; exact ht)
        (by rw [getD_set_self, if_pos ht, List.length_set]; omega)]
      rfl

theorem overlay_foldl_cellD_outside (x y : Nat) :
    ∀ (bl : List (Nat × Nat × String)),
      (∀ c ∈ bl, y ≠ c.2.1 ∨ x < c.1 ∨ c.1 + c.2.2.data.length ≤ x) →
      ∀ rows : List (List String),
        ((bl.foldl overlayOne rows).getD y []).getD x "" =
          (rows.getD y []).getD x "" := by
  intro bl
  induction bl with
  | nil => intro _ rows; rfl
  | cons b bl ih =>
    intro hc rows
    rw [List.foldl_cons, ih (fun c hcc => hc c (List.mem_cons_of_mem _ hcc))]
    refine writeChars_cellD_preserve _ _ _ 0 rows x y ?_
    rcases hc b (List.mem_cons_self _ _) with h | h | h
    · exact Or.inl h
    · exact Or.inr (Or.inl (by omega))
    · exact Or.inr (Or.inr (by omega))

theorem initLayout_blackout_cellD (config : Option BoxLayoutConfig)
    (hdisj : DisjointBlackouts config) (b : Nat × Nat × String)
    (hb : b ∈ blackoutsOf config) (j : Nat) (hj : j < b.2.2.data.length) :
    (initLayout config).cellD (b.1 + j) b.2.1 = (b.2.2.data.getD j ' ').toString := by
  obtain ⟨pre, post, hsplit⟩ := List.append_of_mem hb
  have hheight : b.2.1 + 1 ≤ resolvedMinHeight config :=
    le_foldl_max (fun c => c.2.1 + 1) _ _ b hb
  have hwidth : b.1 + b.2.2.utf8ByteSize + 1 ≤ resolvedMinWidth config :=
    le_foldl_max (fun c => c.1 + c.2.2.utf8ByteSize + 1) _ _ b hb
  have hlenb : b.2.2.data.length ≤ b.2.2.utf8ByteSize := data_length_le_utf8ByteSize _
  unfold DisjointBlackouts at hdisj
  rw [hsplit] at hdisj
  have hpost : ∀ c ∈ post, b.2.1 ≠ c.2.1 ∨ b.1 + b.2.2.data.length ≤ c.1 ∨
      c.1 + c.2.2.data.length ≤ b.1 :=
    fun c hc => (List.pairwise_cons.mp (List.pairwise_append.mp hdisj).2.1).1 c hc
  show (((blackoutsOf config).foldl overlayOne
    (BoxLayout.new (resolvedMinWidth config) (resolvedMinHeight config)).rows).getD
      b.2.1 []).getD (b.1 + j) "" = _
  rw [hsplit, List.foldl_append, List.foldl_cons]
  rw [overlay_foldl_cellD_outside (b.1 + j) b.2.1 post ?hout]
  case hout =>
    intro c hc
    rcases hpost c hc with h | h | h
    · exact Or.inl h
    · exact Or.inr (Or.inl (by omega))
    · exact Or.inr (Or.inr (by omega))
  have hRlen : (pre.foldl overlayOne (BoxLayout.new (resolvedMinWidth config)
      (resolvedMinHeight config)).rows).length = resolvedMinHeight config := by
    rw [overlay_foldl_length]
    simp [BoxLayout.new]
  have hRrow : ((pre.foldl overlayOne (BoxLayout.new (resolvedMinWidth config)
      (resolvedMinHeight config)).rows).getD b.2.1 []).length =
      resolvedMinWidth config := by
    rw [overlay_foldl_row_length, rows_new_getD (by omega), List.length_replicate]
  have := writeChars_cellD_write b.2.1 b.1 b.2.2.data 0
    (pre.foldl overlayOne (BoxLayout.new (resolvedMinWidth config)
      (resolvedMinHeight config)).rows) j hj (by omega) (by rw [hRrow]; omega)
  rw [show b.1 + j = b.1 + 0 + j by omega]
  exact this

theorem toString_ne_filled {ch : Char} (h : ch ≠ '#') : ch.toString ≠ FILLED := by
  intro he
  apply h
  have hd := congrArg String.data he
  simp only [FILLED] at hd
  simpa [Char.toString, String.singleton] using hd

theorem growStep_cellD (L : BoxLayout) (hinv : GrowInv L) (maxw maxh : Nat) (a : ℚ)
    (x y : Nat) (hx : x < L.width) (hy : y < L.height) :
    (growStep maxw maxh a L).cellD x y = L.cellD x y := by
  unfold growStep
  split
  · exact rowAppend_cellD_lt L x y hy
  · exact colAppend_cellD_lt L hinv.1 x y hx hy

theorem growLoop_facts (bl maxw maxh : Nat) (a : ℚ) :
    ∀ (fuel : Nat) (L : BoxLayout), GrowInv L →
      GrowInv (growLoop bl maxw maxh a fuel L) ∧
      L.width ≤ (growLoop bl maxw maxh a fuel L).width ∧
      L.height ≤ (growLoop bl maxw maxh a fuel L).height ∧
      ∀ x y, x < L.width → y < L.height →
        (growLoop bl maxw maxh a fuel L).cellD x y = L.cellD x y := by
  intro fuel
  induction fuel with
  | zero => intro L hinv; exact ⟨hinv, le_refl _, le_refl _, fun _ _ _ _ => rfl⟩
  | succ fuel ih =>
    intro L hinv
    rw [growLoop]
    split
    · obtain ⟨hinv2, hw2, hh2, -, -⟩ := growStep_facts L hinv maxw maxh a
      obtain ⟨hinv3, hw3, hh3, hcell3⟩ := ih (growStep maxw maxh a L) hinv2
      refine ⟨hinv3, le_trans hw2 hw3, le_trans hh2 hh3, ?_⟩
      intro x y hx hy
      rw [hcell3 x y (lt_of_lt_of_le hx hw2) (lt_of_lt_of_le hy hh2)]
      exact growStep_cellD L hinv maxw maxh a x y hx hy
    · exact ⟨hinv, le_refl _, le_refl _, fun _ _ _ _ => rfl⟩

theorem sizedLayout_facts (len : Nat) (config : Option BoxLayoutConfig)
    (hw : 1 ≤ resolvedMinWidth config) (hh : 1 ≤ resolvedMinHeight config) :
    GrowInv (sizedLayout len config) ∧
    resolvedMinWidth config ≤ (sizedLayout len config).width ∧
    resolvedMinHeight config ≤ (sizedLayout len config).height ∧
    ∀ x y, x < resolvedMinWidth config → y < resolvedMinHeight config →
      (sizedLayout len config).cellD x y = (initLayout config).cellD x y := by
  obtain ⟨h1, h2, h3, h4⟩ := growLoop_facts (len * 8) (resolvedMaxWidth len config)
    (resolvedMaxHeight len config) (resolvedAspect config)
    (resolvedMaxWidth len config + resolvedMaxHeight len config + 2)
    (initLayout config) (initLayout_inv config hw hh)
  rw [initLayout_width config hh] at h2 h4
  rw [initLayout_height config] at h3 h4
  exact ⟨h1, h2, h3, h4⟩

/-! ## Claim C7 -/

/-- C7 (amended): for every config whose sizing succeeds, whose blackout
regions are pairwise disjoint, and whose blackout texts avoid the filled
marker `'#'`, every cell covered by a blackout triple `(left, top, text)`
holds the corresponding character of `text` and is not Filled in the final
layout, and for every payload the rendered output contains `text`
contiguously and unchanged, regardless of the payload's bit length.  (The
original claim fails when a blackout text contains `'#'` — the covered cell
then *is* Filled — and when two blackouts overlap — the later overlay
overwrites the earlier one's characters.) -/
theorem blackout_preserved (len : Nat) (config : Option BoxLayoutConfig)
    (L : BoxLayout) (hL : layout_byte_length len config = some L)
    (hdisj : DisjointBlackouts config)
    (b : Nat × Nat × String) (hb : b ∈ blackoutsOf config)
    (hnof : ∀ ch ∈ b.2.2.data, ch ≠ '#') :
    (∀ j < b.2.2.data.length,
      L.cellD (b.1 + j) b.2.1 = (b.2.2.data.getD j ' ').toString ∧
      ¬ L.is_filled (b.1 + j) b.2.1) ∧
    ∀ bytes : List Nat, ∃ pre post : List Char,
      L.display_bytes bytes = pre ++ (b.2.2.data ++ post) := by
  have hLe : L = sizedLayout len config := by
    unfold layout_byte_length at hL
    split at hL
    · exact (Option.some.inj hL).symm
    · cases hL
  subst hLe
  have hheight : b.2.1 + 1 ≤ resolvedMinHeight config :=
    le_foldl_max (fun c => c.2.1 + 1) _ _ b hb
  have hwidth : b.1 + b.2.2.utf8ByteSize + 1 ≤ resolvedMinWidth config :=
    le_foldl_max (fun c => c.1 + c.2.2.utf8ByteSize + 1) _ _ b hb
  have hlenb : b.2.2.data.length ≤ b.2.2.utf8ByteSize := data_length_le_utf8ByteSize _
  obtain ⟨hinv, hwge, hhge, hcell⟩ := sizedLayout_facts len config (by omega) (by omega)
  have hcellv : ∀ j < b.2.2.data.length,
      (sizedLayout len config).cellD (b.1 + j) b.2.1 =
        (b.2.2.data.getD j ' ').toString := by
    intro j hj
    rw [hcell (b.1 + j) b.2.1 (by omega) (by omega)]
    exact initLayout_blackout_cellD config hdisj b hb j hj
  have hmem : ∀ j (hj : j < b.2.2.data.length), b.2.2.data.getD j ' ' ∈ b.2.2.data := by
    intro j hj
    rw [List.getD_eq_getElem?_getD, List.getElem?_eq_getElem hj]
    exact List.getElem_mem _
  have hnf : ∀ j < b.2.2.data.length,
      ¬ (sizedLayout len config).is_filled (b.1 + j) b.2.1 := by
    intro j hj hf
    exact toString_ne_filled (hnof _ (hmem j hj)) ((hcellv j hj).symm.trans hf)
  refine ⟨fun j hj => ⟨hcellv j hj, hnf j hj⟩, ?_⟩
  intro bytes
  have hblk : ∀ j < b.2.2.data.length,
      (sizedLayout len config).get_blackout_at (b.1 + j) b.2.1 =
        some ((b.2.2.data.getD j ' ').toString) := by
    intro j hj
    rw [← hcellv j hj]
    refine get_blackout_at_of_cellD _ hinv.1 (by omega) (by omega) ?_
    rw [hcellv j hj]
    exact toString_ne_filled (hnof _ (hmem j hj))
  have hnl : ∀ j < b.2.2.data.length,
      nlAfter (sizedLayout len config) (b.1 + j) b.2.1 = [] := by
    intro j hj
    unfold nlAfter
    rw [if_pos (by omega)]
  obtain ⟨A, B, hAB⟩ := rowMajor_decomp (sizedLayout len config) b.1 b.2.1
    b.2.2.data.length (by omega) (by omega)
  obtain ⟨pre, post, hpp⟩ := displayOut_pre (sizedLayout len config) b.2.2.data b.1 b.2.1
    hblk hnl A B ((sizedLayout len config).bytes_to_points bytes)
  refine ⟨pre, post, ?_⟩
  show displayOut (sizedLayout len config) (rowMajor (sizedLayout len config))
    ((sizedLayout len config).bytes_to_points bytes) = _
  rw [hAB]
  exact hpp

/-- C7 counterexample: sizing succeeds for a config whose blackout text is
the filled marker `"#"`, yet the covered cell is Filled in the final layout;
and sizing succeeds for a config with two overlapping blackouts, yet the
cell covered by the first blackout does not hold that blackout's
character. -/
theorem blackout_preserved_cex :
    ((layout_byte_length 1 (some cfgHashBlackout)).isSome = true ∧
      (sizedLayout 1 (some cfgHashBlackout)).is_filled 0 0) ∧
    ((layout_byte_length 1 (some cfgOverlapBlackout)).isSome = true ∧
      (sizedLayout 1 (some cfgOverlapBlackout)).cellD 0 0 ≠ "A") := by
  refine ⟨⟨?_, ?_⟩, ⟨?_, ?_⟩⟩ <;> decide

/-- C7 witness: sizing one byte with a single `"AB"` blackout at `(1, 1)`
keeps both characters in the layout and in the rendering of the payload
`[5]`. -/
theorem blackout_preserved_witness :
    (layout_byte_length 1 (some cfgAB) = some (sizedLayout 1 (some cfgAB)) ∧
      DisjointBlackouts (some cfgAB) ∧
      (1, 1, "AB") ∈ blackoutsOf (some cfgAB)) ∧
    ((sizedLayout 1 (some cfgAB)).cellD ((1, 1, "AB").1 + 0) (1, 1, "AB").2.1 =
        ((1, 1, "AB").2.2.data.getD 0 ' ').toString ∧
      ¬ (sizedLayout 1 (some cfgAB)).is_filled ((1, 1, "AB").1 + 0)
        (1, 1, "AB").2.1) ∧
    ∃ pre post : List Char,
      (sizedLayout 1 (some cfgAB)).display_bytes [5] =
        pre ++ ((1, 1, "AB").2.2.data ++ post) :=
  ⟨⟨by decide, by decide, by decide⟩,
    (blackout_preserved 1 (some cfgAB) (sizedLayout 1 (some cfgAB)) (by decide)
      (by decide) (1, 1, "AB") (by decide) (by decide)).1 0 (by decide),
    (blackout_preserved 1 (some cfgAB) (sizedLayout 1 (some cfgAB)) (by decide)
      (by decide) (1, 1, "AB") (by decide) (by decide)).2 [5]⟩

/-! ## Round-trip decoding (claim C1) -/

theorem displayOut_cons_conn (L : BoxLayout) (x y : Nat) (c : Connections)
    (hbl : L.get_blackout_at x y = none) (hcn : L.get_connections_at x y = some c)
    (rest : List (Nat × Nat)) (p : Nat) (ps : List Nat) :
    displayOut L ((x, y) :: rest) (p :: ps) =
      c.get_character p :: (nlAfter L x y ++ displayOut L rest ps) := by
  show (phase1 L ((x, y) :: rest) (p :: ps)).1 ++
    phase2 L (phase1 L ((x, y) :: rest) (p :: ps)).2 = _
  rw [phase1, hbl, hcn]
  simp [displayOut, List.append_assoc]

theorem displayOut_cons_conn_nil (L : BoxLayout) (x y : Nat) (c : Connections)
    (hcn : L.get_connections_at x y = some c) (rest : List (Nat × Nat)) :
    displayOut L ((x, y) :: rest) [] =
      c.get_character 0 :: (nlAfter L x y ++ displayOut L rest []) := by
  show (phase1 L ((x, y) :: rest) []).1 ++ phase2 L (phase1 L ((x, y) :: rest) []).2 = _
  rw [phase1]
  show phase2 L ((x, y) :: rest) = _
  rw [phase2, hcn]
  show _ = c.get_character 0 :: (nlAfter L x y ++
    ((phase1 L rest []).1 ++ phase2 L (phase1 L rest []).2))
  rw [phase1]
  simp

theorem displayOut_cons_none (L : BoxLayout) (x y : Nat)
    (hbl : L.get_blackout_at x y = none) (hcn : L.get_connections_at x y = none)
    (rest : List (Nat × Nat)) (p : Nat) (ps : List Nat) :
    displayOut L ((x, y) :: rest) (p :: ps) =
      nlAfter L x y ++ displayOut L rest (p :: ps) := by
  show (phase1 L ((x, y) :: rest) (p :: ps)).1 ++
    phase2 L (phase1 L ((x, y) :: rest) (p :: ps)).2 = _
  rw [phase1, hbl, hcn]
  simp [displayOut, List.append_assoc]

theorem displayOut_cons_none_nil (L : BoxLayout) (x y : Nat)
    (hbl : L.get_blackout_at x y = none) (hcn : L.get_connections_at x y = none)
    (rest : List (Nat × Nat)) :
    displayOut L ((x, y) :: rest) [] =
      ' ' :: (nlAfter L x y ++ displayOut L rest []) := by
  show (phase1 L ((x, y) :: rest) []).1 ++ phase2 L (phase1 L ((x, y) :: rest) []).2 = _
  rw [phase1]
  show phase2 L ((x, y) :: rest) = _
  rw [phase2, hcn, hbl]
  show _ = ' ' :: (nlAfter L x y ++
    ((phase1 L rest []).1 ++ phase2 L (phase1 L rest []).2))
  rw [phase1]
  simp

theorem glyph_parse (c : Connections) :
    ∀ p, p < 2 ^ c.get_bits → parseOne (c.get_character p) = some (p, c.get_bits) := by
  cases c <;> decide

theorem parse_nlAfter (L : BoxLayout) (x y : Nat) :
    (nlAfter L x y).filterMap parseOne = [] := by
  unfold nlAfter
  split_ifs <;> decide

theorem zip_take_self {α β : Type} :
    ∀ (ps : List α) (ws : List β), ps.zip (ws.take ps.length) = ps.zip ws := by
  intro ps
  induction ps with
  | nil => intro ws; rfl
  | cons p ps ih =>
    intro ws
    cases ws with
    | nil => rfl
    | cons w ws =>
      show (p :: ps).zip (w :: ws.take ps.length) = _
      rw [List.zip_cons_cons, List.zip_cons_cons, ih ws]

theorem forall₂_zip_mem {α β : Type} {R : α → β → Prop} :
    ∀ {l1 : List α} {l2 : List β}, List.Forall₂ R l1 l2 →
      ∀ pw ∈ l1.zip l2, R pw.1 pw.2 := by
  intro l1 l2 h
  induction h with
  | nil => intro pw hpw; cases hpw
  | cons hab h ih =>
    intro pw hpw
    rw [List.zip_cons_cons] at hpw
    rcases List.mem_cons.mp hpw with rfl | hpw2
    · exact hab
    · exact ih pw hpw2

theorem parse_displayOut (L : BoxLayout) :
    ∀ (cells : List (Nat × Nat)) (ps : List Nat),
      (∀ xy ∈ cells, ∀ s, L.get_blackout_at xy.1 xy.2 = some s →
        ∀ ch ∈ s.data, parseOne ch = none) →
      List.Forall₂ (fun p w => p < 2 ^ w) ps
        ((connWidths (cells.map (fun xy => L.get_connections_at xy.1 xy.2))).take
          ps.length) →
      (displayOut L cells ps).filterMap parseOne =
        ps.zip (connWidths (cells.map (fun xy => L.get_connections_at xy.1 xy.2))) ++
          ((connWidths (cells.map (fun xy => L.get_connections_at xy.1 xy.2))).drop
            ps.length).map (fun w => (0, w)) := by
  intro cells
  induction cells with
  | nil =>
    intro ps hclean hfit
    cases ps with
    | nil => rfl
    | cons p ps => cases hfit
  | cons xy rest ih =>
    intro ps hclean hfit
    obtain ⟨x, y⟩ := xy
    have hclean' : ∀ xy ∈ rest, ∀ s, L.get_blackout_at xy.1 xy.2 = some s →
        ∀ ch ∈ s.data, parseOne ch = none :=
      fun xy hxy => hclean xy (List.mem_cons_of_mem _ hxy)
    rcases hbl : L.get_blackout_at x y with - | s
    · rcases hcn : L.get_connections_at x y with - | c
      · have hw : connWidths (((x, y) :: rest).map
            (fun xy => L.get_connections_at xy.1 xy.2)) =
            connWidths (rest.map (fun xy => L.get_connections_at xy.1 xy.2)) := by
          rw [List.map_cons]
          show connWidths (L.get_connections_at x y ::
            rest.map (fun xy => L.get_connections_at xy.1 xy.2)) = _
          rw [hcn, connWidths_cons_none]
        rw [hw] at hfit ⊢
        cases ps with
        | nil =>
          rw [displayOut_cons_none_nil L x y hbl hcn rest,
            List.filterMap_cons_none (by decide), List.filterMap_append,
            parse_nlAfter, List.nil_append]
          exact ih [] hclean' hfit
        | cons p ps =>
          rw [displayOut_cons_none L x y hbl hcn rest p ps, List.filterMap_append,
            parse_nlAfter, List.nil_append]
          exact ih (p :: ps) hclean' hfit
      · have hw : connWidths (((x, y) :: rest).map
            (fun xy => L.get_connections_at xy.1 xy.2)) =
            c.get_bits ::
              connWidths (rest.map (fun xy => L.get_connections_at xy.1 xy.2)) := by
          rw [List.map_cons]
          show connWidths (L.get_connections_at x y ::
            rest.map (fun xy => L.get_connections_at xy.1 xy.2)) = _
          rw [hcn, connWidths_cons_some]
        rw [hw] at hfit ⊢
        cases ps with
        | nil =>
          rw [displayOut_cons_conn_nil L x y c hcn rest,
            List.filterMap_cons_some (glyph_parse c 0
              (Nat.pos_pow_of_pos _ (by norm_num))),
            List.filterMap_append, parse_nlAfter, List.nil_append]
          rw [ih [] hclean' (by exact List.Forall₂.nil)]
          simp
        | cons p ps =>
          rw [List.length_cons, List.take_succ_cons] at hfit
          rcases hfit with - | ⟨hp, hfit'⟩
          rw [displayOut_cons_conn L x y c hbl hcn rest p ps]
          rw [List.filterMap_cons_some (glyph_parse c p hp),
            List.filterMap_append, parse_nlAfter, List.nil_append,
            ih ps hclean' hfit']
          rw [List.length_cons, List.zip_cons_cons, List.drop_succ_cons]
          rfl
    · have hcn := blackout_conn_none L hbl
      have hw : connWidths (((x, y) :: rest).map
          (fun xy => L.get_connections_at xy.1 xy.2)) =
          connWidths (rest.map (fun xy => L.get_connections_at xy.1 xy.2)) := by
        rw [List.map_cons]
        show connWidths (L.get_connections_at x y ::
          rest.map (fun xy => L.get_connections_at xy.1 xy.2)) = _
        rw [hcn, connWidths_cons_none]
      rw [hw] at hfit ⊢
      have hsd : s.data.filterMap parseOne = [] :=
        List.filterMap_eq_nil_iff.mpr (hclean (x, y) (List.mem_cons_self _ _) s hbl)
      rw [displayOut_cons_blackout L x y s hbl rest ps, List.filterMap_append,
        List.filterMap_append, hsd, parse_nlAfter, List.nil_append,
        List.nil_append]
      exact ih ps hclean' hfit

theorem byteVal_append (A B : List Nat) :
    byteVal (A ++ B) = byteVal A + byteVal B * 2 ^ (8 * A.length) := by
  induction A with
  | nil => simp [byteVal]
  | cons a A ih =>
    show byteVal (a :: (A ++ B)) = _
    simp only [byteVal, List.length_cons]
    rw [ih]
    have hp : (2 : Nat) ^ (8 * (A.length + 1)) = 2 ^ (8 * A.length) * 256 := by
      rw [show 8 * (A.length + 1) = 8 * A.length + 8 by ring, pow_add]
      norm_num
    rw [hp]
    ring

theorem pairVal_zeros : ∀ l : List Nat, pairVal (l.map (fun w => (0, w))) = 0 := by
  intro l
  induction l with
  | nil => rfl
  | cons w l ih =>
    show pairVal ((0, w) :: l.map (fun w => (0, w))) = 0
    simp [pairVal, ih]

theorem map_snd_zeros (l : List Nat) :
    (l.map (fun w => (0, w))).map Prod.snd = l := by
  rw [List.map_map]
  simp [Function.comp]

theorem flushBytesAux_spec :
    ∀ (fuel bits offset : Nat), offset ≤ fuel →
      byteVal (flushBytesAux fuel bits offset).1 +
        (flushBytesAux fuel bits offset).2.1 *
          2 ^ (8 * (flushBytesAux fuel bits offset).1.length) = bits ∧
      (flushBytesAux fuel bits offset).2.2 +
        8 * (flushBytesAux fuel bits offset).1.length = offset ∧
      (flushBytesAux fuel bits offset).2.2 < 8 ∧
      (bits < 2 ^ offset →
        (flushBytesAux fuel bits offset).2.1 <
          2 ^ (flushBytesAux fuel bits offset).2.2) ∧
      ∀ b2 ∈ (flushBytesAux fuel bits offset).1, b2 < 256 := by
  intro fuel
  induction fuel with
  | zero =>
    intro bits offset hf
    have h0 : offset = 0 := by omega
    subst h0
    simp [flushBytesAux, byteVal]
  | succ fuel ih =>
    intro bits offset hf
    by_cases h8 : 8 ≤ offset
    · obtain ⟨iv, io, il, ib, i256⟩ := ih (bits / 256) (offset - 8) (by omega)
      simp only [flushBytesAux, if_pos h8]
      refine ⟨?_, ?_, il, ?_, ?_⟩
      · show bits % 256 + byteVal (flushBytesAux fuel (bits / 256) (offset - 8)).1 * 256 +
          (flushBytesAux fuel (bits / 256) (offset - 8)).2.1 *
            2 ^ (8 * ((flushBytesAux fuel (bits / 256) (offset - 8)).1.length + 1)) = bits
        have hp : (2 : Nat) ^
            (8 * ((flushBytesAux fuel (bits / 256) (offset - 8)).1.length + 1)) =
            2 ^ (8 * (flushBytesAux fuel (bits / 256) (offset - 8)).1.length) * 256 := by
          rw [show 8 * ((flushBytesAux fuel (bits / 256) (offset - 8)).1.length + 1) =
            8 * (flushBytesAux fuel (bits / 256) (offset - 8)).1.length + 8 by ring,
            pow_add]
          norm_num
        rw [hp]
        have hkey : bits % 256 +
            byteVal (flushBytesAux fuel (bits / 256) (offset - 8)).1 * 256 +
            (flushBytesAux fuel (bits / 256) (offset - 8)).2.1 *
              (2 ^ (8 * (flushBytesAux fuel (bits / 256) (offset - 8)).1.length) * 256) =
            bits % 256 +
            (byteVal (flushBytesAux fuel (bits / 256) (offset - 8)).1 +
              (flushBytesAux fuel (bits / 256) (offset - 8)).2.1 *
                2 ^ (8 * (flushBytesAux fuel (bits / 256) (offset - 8)).1.length)) *
              256 := by ring
        rw [hkey, iv]
        omega
      · show (flushBytesAux fuel (bits / 256) (offset - 8)).2.2 +
          8 * ((flushBytesAux fuel (bits / 256) (offset - 8)).1.length + 1) = offset
        omega
      · intro hlt
        refine ib ?_
        rw [Nat.div_lt_iff_lt_mul (by norm_num)]
        have hpow : (2 : Nat) ^ (offset - 8) * 256 = 2 ^ offset := by
          rw [show (256 : Nat) = 2 ^ 8 by norm_num, ← pow_add]
          congr 1
          omega
        rw [hpow]
        exact hlt
      · intro b2 hb2
        rcases List.mem_cons.mp hb2 with rfl | hb2
        · exact Nat.mod_lt _ (by norm_num)
        · exact i256 b2 hb2
    · simp only [flushBytesAux, if_neg h8]
      exact ⟨by simp [byteVal], by simp, by omega, fun h => by simpa using h, by simp⟩

theorem bpbGo_spec :
    ∀ (pairs : List (Nat × Nat)) (bits offset : Nat),
      bits < 2 ^ offset → offset < 8 →
      (∀ pw ∈ pairs, pw.1 < 2 ^ pw.2) →
      ∃ bitsF offF,
        byteVal (bpbGo bits offset pairs) +
          bitsF * 2 ^ (8 * (bpbGo bits offset pairs).length) =
          bits + pairVal pairs * 2 ^ offset ∧
        8 * (bpbGo bits offset pairs).length + offF =
          offset + (pairs.map Prod.snd).sum ∧
        bitsF < 2 ^ offF ∧ offF < 8 ∧
        ∀ b2 ∈ bpbGo bits offset pairs, b2 < 256 := by
  intro pairs
  induction pairs with
  | nil =>
    intro bits offset hb ho _
    exact ⟨bits, offset, by simp [bpbGo, pairVal, byteVal], by simp [bpbGo], hb, ho,
      by simp [bpbGo]⟩
  | cons pw rest ih =>
    intro bits offset hb ho hfit
    obtain ⟨p, w⟩ := pw
    have hp : p < 2 ^ w := hfit (p, w) (List.mem_cons_self _ _)
    have hfit' : ∀ pw ∈ rest, pw.1 < 2 ^ pw.2 :=
      fun pw h => hfit pw (List.mem_cons_of_mem _ h)
    have hst : (if offset = 0 then (p, w) else (bits + p * 2 ^ offset, offset + w)) =
        (bits + p * 2 ^ offset, offset + w) := by
      by_cases h0 : offset = 0
      · subst h0
        have hb0 : bits = 0 := by simpa using hb
        subst hb0
        simp
      · rw [if_neg h0]
    have hgo : bpbGo bits offset ((p, w) :: rest) =
        (flushBytes (bits + p * 2 ^ offset) (offset + w)).1 ++
          bpbGo (flushBytes (bits + p * 2 ^ offset) (offset + w)).2.1
            (flushBytes (bits + p * 2 ^ offset) (offset + w)).2.2 rest := by
      show (let st := if offset = 0 then (p, w) else (bits + p * 2 ^ offset, offset + w)
        let fl := flushBytes st.1 st.2
        fl.1 ++ bpbGo fl.2.1 fl.2.2 rest) = _
      rw [hst]
    have hstlt : bits + p * 2 ^ offset < 2 ^ (offset + w) := by
      have h2 : (p + 1) * 2 ^ offset ≤ 2 ^ w * 2 ^ offset :=
        Nat.mul_le_mul_right _ (by omega)
      have h3 : (2 : Nat) ^ w * 2 ^ offset = 2 ^ (offset + w) := by
        rw [← pow_add, Nat.add_comm]
      have h4 : (p + 1) * 2 ^ offset = p * 2 ^ offset + 2 ^ offset := by ring
      omega
    obtain ⟨fv, fo, fl8, ffit, f256⟩ :=
      flushBytesAux_spec (offset + w) (bits + p * 2 ^ offset) (offset + w) (le_refl _)
    have hfl : flushBytes (bits + p * 2 ^ offset) (offset + w) =
        flushBytesAux (offset + w) (bits + p * 2 ^ offset) (offset + w) := rfl
    rw [← hfl] at fv fo fl8 ffit f256
    obtain ⟨bitsF, offF, iv, io, ib, io8, i256⟩ :=
      ih (flushBytes (bits + p * 2 ^ offset) (offset + w)).2.1
        (flushBytes (bits + p * 2 ^ offset) (offset + w)).2.2 (ffit hstlt) fl8 hfit'
    refine ⟨bitsF, offF, ?_, ?_, ib, io8, ?_⟩
    · rw [hgo, byteVal_append, List.length_append]
      set fl := flushBytes (bits + p * 2 ^ offset) (offset + w) with hflname
      set out2 := bpbGo fl.2.1 fl.2.2 rest with hout2
      have hp1 : (2 : Nat) ^ (8 * (fl.1.length + out2.length)) =
          2 ^ (8 * fl.1.length) * 2 ^ (8 * out2.length) := by
        rw [← pow_add]
        congr 1
        ring
      rw [hp1]
      have hkey1 : byteVal fl.1 + byteVal out2 * 2 ^ (8 * fl.1.length) +
          bitsF * (2 ^ (8 * fl.1.length) * 2 ^ (8 * out2.length)) =
          byteVal fl.1 +
            (byteVal out2 + bitsF * 2 ^ (8 * out2.length)) * 2 ^ (8 * fl.1.length) := by
        ring
      rw [hkey1, iv]
      have hkey2 : byteVal fl.1 +
          (fl.2.1 + pairVal rest * 2 ^ fl.2.2) * 2 ^ (8 * fl.1.length) =
          (byteVal fl.1 + fl.2.1 * 2 ^ (8 * fl.1.length)) +
            pairVal rest * (2 ^ fl.2.2 * 2 ^ (8 * fl.1.length)) := by
        ring
      rw [hkey2, fv]
      have hkey3 : (2 : Nat) ^ fl.2.2 * 2 ^ (8 * fl.1.length) = 2 ^ (offset + w) := by
        rw [← pow_add, fo]
      rw [hkey3]
      show bits + p * 2 ^ offset + pairVal rest * 2 ^ (offset + w) =
        bits + (p + pairVal rest * 2 ^ w) * 2 ^ offset
      rw [pow_add]
      ring
    · rw [hgo, List.length_append]
      show 8 * (((flushBytes (bits + p * 2 ^ offset) (offset + w)).1).length +
        (bpbGo (flushBytes (bits + p * 2 ^ offset) (offset + w)).2.1
          (flushBytes (bits + p * 2 ^ offset) (offset + w)).2.2 rest).length) + offF =
        offset + (w + (rest.map Prod.snd).sum)
      omega
    · intro b2 hb2
      rw [hgo] at hb2
      rcases List.mem_append.mp hb2 with h | h
      · exact f256 b2 h
      · exact i256 b2 h

theorem box_points_to_bytes_spec (P : List (Nat × Nat))
    (hfit : ∀ pw ∈ P, pw.1 < 2 ^ pw.2) :
    ∃ bitsF offF,
      byteVal (box_points_to_bytes P) +
        bitsF * 2 ^ (8 * (box_points_to_bytes P).length) = pairVal P ∧
      8 * (box_points_to_bytes P).length + offF = (P.map Prod.snd).sum ∧
      bitsF < 2 ^ offF ∧ offF < 8 ∧
      ∀ b2 ∈ box_points_to_bytes P, b2 < 256 := by
  obtain ⟨bitsF, offF, h1, h2, h3, h4, h5⟩ :=
    bpbGo_spec P 0 0 (by norm_num) (by norm_num) hfit
  have hbox : box_points_to_bytes P = bpbGo 0 0 P := rfl
  rw [hbox]
  exact ⟨bitsF, offF, by simpa using h1, by simpa using h2, h3, h4, h5⟩

theorem byteVal_take :
    ∀ (bs out : List Nat) (bitsF : Nat),
      (∀ b ∈ bs, b < 256) → (∀ b ∈ out, b < 256) →
      bs.length ≤ out.length →
      byteVal out + bitsF * 2 ^ (8 * out.length) = byteVal bs →
      out.take bs.length = bs := by
  intro bs
  induction bs with
  | nil => intro out bitsF _ _ _ _; rfl
  | cons b bs ih =>
    intro out bitsF hbs hout hlen heq
    cases out with
    | nil => simp at hlen
    | cons o os =>
      have hb : b < 256 := hbs b (List.mem_cons_self _ _)
      have ho : o < 256 := hout o (List.mem_cons_self _ _)
      simp only [byteVal, List.length_cons] at heq
      have hpow : (2 : Nat) ^ (8 * (os.length + 1)) = 2 ^ (8 * os.length) * 256 := by
        rw [show 8 * (os.length + 1) = 8 * os.length + 8 by ring, pow_add]
        norm_num
      rw [hpow] at heq
      have hgrp : bitsF * (2 ^ (8 * os.length) * 256) =
          (bitsF * 2 ^ (8 * os.length)) * 256 := by ring
      rw [hgrp] at heq
      have hkey : o = b ∧
          byteVal os + bitsF * 2 ^ (8 * os.length) = byteVal bs := by
        constructor <;> omega
      rw [List.length_cons, List.take_succ_cons, hkey.1,
        ih os bitsF (fun x hx => hbs x (List.mem_cons_of_mem _ hx))
          (fun x hx => hout x (List.mem_cons_of_mem _ hx))
          (by simpa using hlen) hkey.2]


theorem mem_rowMajor (L : BoxLayout) {xy : Nat × Nat} (h : xy ∈ rowMajor L) :
    xy.1 < L.width ∧ xy.2 < L.height := by
  unfold rowMajor at h
  rw [List.mem_flatMap] at h
  obtain ⟨y, hy, hxy⟩ := h
  rw [List.mem_map] at hxy
  obtain ⟨x, hx, rfl⟩ := hxy
  exact ⟨List.mem_range.mp hx, List.mem_range.mp hy⟩

theorem width_new_pos {w h : Nat} (hh : 0 < h) : (BoxLayout.new w h).width = w := by
  show ((BoxLayout.new w h).rows.getD 0 []).length = w
  rw [rows_new_getD hh, List.length_replicate]

theorem get_blackout_at_filled (L : BoxLayout) (hrect : Rectangular L)
    {x y : Nat} (hx : x < L.width) (hy : y < L.height)
    (hf : L.cellD x y = FILLED) : L.get_blackout_at x y = none := by
  have hy' : y < L.rows.length := hy
  have hrow : L.rows.getD y [] = L.rows[y] := rows_getD_eq_getElem L hy'
  have hlen : (L.rows[y]).length = L.width := hrect _ (L.rows.getElem_mem _)
  have hx' : x < (L.rows[y]).length := by rw [hlen]; exact hx
  have hcell : L.cellD x y = (L.rows[y])[x] := by
    show (L.rows.getD y []).getD x "" = _
    rw [hrow, List.getD_eq_getElem?_getD, List.getElem?_eq_getElem hx']
    rfl
  unfold BoxLayout.get_blackout_at
  rw [List.get?_eq_getElem?, List.getElem?_eq_getElem hy']
  simp only [Option.some_bind]
  rw [List.get?_eq_getElem?, List.getElem?_eq_getElem hx']
  simp only [Option.some_bind]
  rw [if_pos (by rw [← hcell]; exact hf)]

theorem growStep_allFilled (L : BoxLayout) (hinv : GrowInv L) (maxw maxh : Nat) (a : ℚ)
    (hfill : ∀ x y, x < L.width → y < L.height → L.cellD x y = FILLED) :
    ∀ x y, x < (growStep maxw maxh a L).width → y < (growStep maxw maxh a L).height →
      (growStep maxw maxh a L).cellD x y = FILLED := by
  obtain ⟨hrect, hw1, hh1, -⟩ := hinv
  intro x y hx hy
  by_cases hc : (ratioLt L.height L.width a ∧ L.height < maxh) ∨ maxw ≤ L.width
  · unfold growStep at hx hy ⊢
    rw [if_pos hc] at hx hy ⊢
    rw [rowAppend_width L hh1] at hx
    rw [rowAppend_height] at hy
    by_cases hylt : y < L.height
    · rw [rowAppend_cellD_lt L x y hylt]
      exact hfill x y hx hylt
    · have hyeq : y = L.height := by omega
      subst hyeq
      exact rowAppend_cellD_top L x hx
  · unfold growStep at hx hy ⊢
    rw [if_neg hc] at hx hy ⊢
    rw [colAppend_width L hh1] at hx
    rw [colAppend_height] at hy
    by_cases hxlt : x < L.width
    · rw [colAppend_cellD_lt L hrect x y hxlt hy]
      exact hfill x y hxlt hy
    · have hxeq : x = L.width := by omega
      subst hxeq
      exact colAppend_cellD_new L hrect y hy

theorem growLoop_allFilled (bl maxw maxh : Nat) (a : ℚ) :
    ∀ (fuel : Nat) (L : BoxLayout), GrowInv L →
      (∀ x y, x < L.width → y < L.height → L.cellD x y = FILLED) →
      ∀ x y, x < (growLoop bl maxw maxh a fuel L).width →
        y < (growLoop bl maxw maxh a fuel L).height →
        (growLoop bl maxw maxh a fuel L).cellD x y = FILLED := by
  intro fuel
  induction fuel with
  | zero => intro L _ hfill; exact hfill
  | succ fuel ih =>
    intro L hinv hfill
    rw [growLoop]
    split
    · exact ih (growStep maxw maxh a L) (growStep_facts L hinv maxw maxh a).1
        (growStep_allFilled L hinv maxw maxh a hfill)
    · exact hfill

theorem sizedLayout_noBlackout (len : Nat) (config : Option BoxLayoutConfig)
    (hnb : blackoutsOf config = [])
    (hw : 1 ≤ resolvedMinWidth config) (hh : 1 ≤ resolvedMinHeight config) :
    ∀ xy ∈ rowMajor (sizedLayout len config),
      (sizedLayout len config).get_blackout_at xy.1 xy.2 = none := by
  have hinit : initLayout config =
      BoxLayout.new (resolvedMinWidth config) (resolvedMinHeight config) := by
    show BoxLayout.mk ((blackoutsOf config).foldl overlayOne
      (BoxLayout.new (resolvedMinWidth config) (resolvedMinHeight config)).rows) = _
    rw [hnb]
    rfl
  have hfill0 : ∀ x y, x < (initLayout config).width →
      y < (initLayout config).height → (initLayout config).cellD x y = FILLED := by
    intro x y hx hy
    rw [hinit] at hx hy ⊢
    rw [height_new] at hy
    rw [width_new_pos (by omega)] at hx
    exact cellD_new hx hy
  have hfillL : ∀ x y, x < (sizedLayout len config).width →
      y < (sizedLayout len config).height →
      (sizedLayout len config).cellD x y = FILLED :=
    growLoop_allFilled (len * 8) (resolvedMaxWidth len config)
      (resolvedMaxHeight len config) (resolvedAspect config) _ (initLayout config)
      (initLayout_inv config hw hh) hfill0
  have hrect : Rectangular (sizedLayout len config) :=
    (sizedLayout_facts len config hw hh).1.1
  intro xy hxy
  obtain ⟨hx, hy⟩ := mem_rowMajor _ hxy
  exact get_blackout_at_filled _ hrect hx hy (hfillL _ _ hx hy)

/-! ## Claim C1 -/

/-- C1 (amended): for every byte buffer (entries below 256) and every
blackout-free config (no blackout triples, resolved minimum dimensions at
least 1) for which layout sizing succeeds, if the widths of the connected
cells consumed by `bytes_to_points` sum to exactly 8 times the buffer length
(no trailing bits are dropped for want of a matching cell), then rendering
the buffer, parsing the rendered string back to points and repacking them to
bytes, truncated to the buffer length, yields exactly the buffer.  (The
original, unqualified claim fails: trailing bits of the final byte are
silently dropped whenever the greedy cell walk cannot reach the exact bit
length, and blackout text corrupts the parse — directly when it contains
box-drawing glyphs, and through grapheme clustering otherwise, since the
parser scans extended grapheme clusters and a combining character in
blackout text merges with an adjacent glyph into one cluster outside every
family.  Without blackouts the rendered string consists solely of glyphs,
spaces and newlines, each its own cluster, where the character-level parser
model is exact.) -/
theorem round_trip (len : Nat) (config : Option BoxLayoutConfig) (L : BoxLayout)
    (hL : layout_byte_length len config = some L)
    (hnb : blackoutsOf config = [])
    (hw : 1 ≤ resolvedMinWidth config) (hh : 1 ≤ resolvedMinHeight config)
    (bytes : List Nat) (hbytes : ∀ b ∈ bytes, b < 256)
    (hfull : bitsConsumed L bytes = 8 * bytes.length) :
    (box_points_to_bytes (parse_boxes_to_points (L.display_bytes bytes))).take
      bytes.length = bytes := by
  have hLe : L = sizedLayout len config := by
    unfold layout_byte_length at hL
    split at hL
    · exact (Option.some.inj hL).symm
    · cases hL
  have hclean : CleanBlackouts L := by
    rw [hLe]
    intro xy hxy s hs
    rw [sizedLayout_noBlackout len config hnb hw hh xy hxy] at hs
    cases hs
  obtain ⟨bitsE, offE, hlenE, hvalE, hoffE, hbE, hfitE⟩ :=
    bytesGo_spec bytes (connList L) 0 0 (by norm_num) hbytes
  have hp : L.bytes_to_points bytes = bytesGo (connList L) 0 0 bytes := rfl
  rw [← hp] at hlenE hvalE hoffE hfitE
  have hoff2 : offE + bitsConsumed L bytes = 8 * bytes.length := by
    simpa [bitsConsumed] using hoffE
  have hoffE0 : offE = 0 := by omega
  have hbE0 : bitsE = 0 := by
    rw [hoffE0] at hbE
    simpa using hbE
  have hvalEq : pairVal ((L.bytes_to_points bytes).zip (connWidths (connList L))) =
      byteVal bytes := by
    rw [hbE0] at hvalE
    simpa using hvalE
  have hparse : parse_boxes_to_points (L.display_bytes bytes) =
      (L.bytes_to_points bytes).zip (connWidths (connList L)) ++
        ((connWidths (connList L)).drop (L.bytes_to_points bytes).length).map
          (fun w => (0, w)) := by
    show (displayOut L (rowMajor L) (L.bytes_to_points bytes)).filterMap parseOne = _
    exact parse_displayOut L (rowMajor L) (L.bytes_to_points bytes) hclean hfitE
  set P := (L.bytes_to_points bytes).zip (connWidths (connList L)) ++
      ((connWidths (connList L)).drop (L.bytes_to_points bytes).length).map
        (fun w => (0, w)) with hP
  have hfitP : ∀ pw ∈ P, pw.1 < 2 ^ pw.2 := by
    intro pw hpw
    rw [hP] at hpw
    rcases List.mem_append.mp hpw with h | h
    · refine forall₂_zip_mem hfitE pw ?_
      rw [zip_take_self]
      exact h
    · obtain ⟨w2, hw2, heq⟩ := List.mem_map.mp h
      rw [← heq]
      exact Nat.pos_pow_of_pos _ (by norm_num)
  obtain ⟨bitsF, offF, hvalF, hoffF, hbF, hoF8, h256⟩ := box_points_to_bytes_spec P hfitP
  have hpairsP : pairVal P = byteVal bytes := by
    rw [hP, pairVal_append, pairVal_zeros, hvalEq]
    simp
  have hsndP : (P.map Prod.snd).sum =
      8 * bytes.length +
        ((connWidths (connList L)).drop (L.bytes_to_points bytes).length).sum := by
    rw [hP, List.map_append, List.sum_append, map_snd_zip_take, map_snd_zeros]
    have htake : ((connWidths (connList L)).take
        (L.bytes_to_points bytes).length).sum = 8 * bytes.length := hfull
    rw [htake]
  have hlenout : bytes.length ≤ (box_points_to_bytes P).length := by
    rw [hsndP] at hoffF
    omega
  rw [hparse]
  refine byteVal_take bytes (box_points_to_bytes P) bitsF hbytes h256 hlenout ?_
  rw [hvalF, hpairsP]

/-- C1 counterexample: with the default sizing for two bytes (a 3 × 3 grid),
rendering `[0, 192]` loses the top two bits of the second byte (the greedy
cell walk cannot consume exactly 16 bits) and decoding returns `[0, 0]`;
and with a blackout made of box-drawing glyphs the parser picks the blackout
text up as payload, so even a payload whose bits are consumed exactly
decodes wrongly.  (Blackout text also corrupts the parse through grapheme
clustering — a combining character merges with the preceding glyph — which
is why the amended claim excludes blackouts altogether rather than merely
glyph-free ones.) -/
theorem round_trip_cex :
    (layout_byte_length 2 none = some (sizedLayout 2 none) ∧
      (box_points_to_bytes (parse_boxes_to_points
        ((sizedLayout 2 none).display_bytes [0, 192]))).take 2 ≠ [0, 192]) ∧
    (layout_byte_length 1 (some cfgGlyphBlackout) =
        some (sizedLayout 1 (some cfgGlyphBlackout)) ∧
      bitsConsumed (sizedLayout 1 (some cfgGlyphBlackout)) [85] = 8 * [85].length ∧
      (box_points_to_bytes (parse_boxes_to_points
        ((sizedLayout 1 (some cfgGlyphBlackout)).display_bytes [85]))).take 1 ≠
        [85]) := by
  refine ⟨⟨?_, ?_⟩, ?_, ?_, ?_⟩ <;> decide

/-- C1 witness: one byte on its default 2 × 2 sizing round-trips. -/
theorem round_trip_witness :
    (layout_byte_length 1 none = some (sizedLayout 1 none) ∧
      blackoutsOf none = [] ∧ 1 ≤ resolvedMinWidth none ∧
      1 ≤ resolvedMinHeight none ∧ 85 < 256 ∧
      bitsConsumed (sizedLayout 1 none) [85] = 8 * [85].length) ∧
    (box_points_to_bytes (parse_boxes_to_points
      ((sizedLayout 1 none).display_bytes [85]))).take [85].length = [85] :=
  ⟨⟨by decide, by decide, by decide, by decide, by decide, by decide⟩,
    round_trip 1 none (sizedLayout 1 none) (by decide) (by decide) (by decide)
      (by decide) [85] (by decide) (by decide)⟩
